import Mathlib

/-
Verification development for the KPI_traceUI Copilot query/analysis engine.

The definitions below are shallow embeddings of the TypeScript sources:
  - CopilotEngine (queryNodes, calculateStats, traceChain, traceImpact,
    traceDependencies, getConnectedNodes),
  - AdvancedAnalyzer (analyzeCorrelations, prioritizeNodes),
  - parseQuery (intent classification and entity extraction).

Modelling conventions:
  - JS `Set<string>` (insertion ordered, deduplicating) is modelled as a
    `List String` into which `addElem` inserts new elements at the end.
  - JS `undefined`/`null` option fields are modelled as `Option _`; the
    distinction between `undefined` and `null` is collapsed (the modelled
    code paths never distinguish them in a way the claims exercise).
  - JS string truthiness (`!!s`: false for undefined/null/"") is modelled
    by `truthyStr`.
  - The recursive traversals are total in JS because the visited set grows;
    the embedding makes them structurally recursive on an explicit fuel,
    with every exported wrapper supplying fuel that provably suffices
    (stabilisation theorems below show larger fuel changes nothing).
  - Built-in `String` functions do not reduce in the kernel, so string
    search/lowercase/trim primitives are re-implemented on `String.data`
    (`List Char`); they implement exactly the JS operations used by the
    source for the character ranges the source manipulates (ASCII letters;
    CJK characters have no case and are not JS word characters).
-/

namespace KPI

/-! ## Data model (graphData.ts / reactflow node shape) -/

/-- Model of `KPIMetrics` from graphData.ts: `{achieved, modelType?, modelCovered,
achievementRate?}`. -/
structure KPIMetrics where
  achieved : Bool
  modelType : Option String
  modelCovered : Bool
  achievementRate : Option ℚ
deriving DecidableEq

/-- The `data` payload of a graph node: category (goal/kpi/design/verify),
optional level (1 or 2), display label, optional metrics (kpi nodes). -/
structure NodeData where
  category : String
  level : Option Nat
  label : String
  metrics : Option KPIMetrics
deriving DecidableEq

/-- A graph node: id plus data payload (positions/styling omitted — never
read by the engine). -/
structure Node where
  id : String
  data : NodeData
deriving DecidableEq

/-- A directed edge `source → target` with its own id. The `data.relationship`
tag is omitted: none of the modelled functions read it. -/
structure Edge where
  id : String
  source : String
  target : String
deriving DecidableEq

/-- The CopilotEngine snapshot: the `nodes`/`edges` arrays held by the class. -/
structure Engine where
  nodes : List Node
  edges : List Edge

/-- JS truthiness of an optional string: `undefined`, `null` and `""` are
falsy. -/
def truthyStr : Option String → Bool
  | none => false
  | some s => !s.data.isEmpty

/-- Model of `node.data.metrics?.achieved` under JS truthiness (missing metrics ⇒
falsy). -/
def metricsAchieved : Option KPIMetrics → Bool
  | none => false
  | some m => m.achieved

/-- Model of `node.data.metrics?.modelType` (missing metrics ⇒ undefined ⇒ `none`). -/
def metricsModelType : Option KPIMetrics → Option String
  | none => none
  | some m => m.modelType

/-! ## Char-list string primitives (kernel-reducible) -/

/-- ASCII lowercase of one character; non-ASCII-uppercase characters are
unchanged. JS `toLowerCase` agrees on every character the queries of the engine
use (ASCII and CJK, the latter caseless). -/
def lowerChar (c : Char) : Char :=
  if 65 ≤ c.toNat ∧ c.toNat ≤ 90 then Char.ofNat (c.toNat + 32) else c

/-- Model of `String.toLowerCase()`. -/
def strLower (s : String) : String := String.mk (s.data.map lowerChar)

/-- ASCII whitespace (the whitespace characters occurring in the query strings of the engine). -/
def wsChar (c : Char) : Bool := c == ' ' || c == '\t' || c == '\n' || c == '\r'

/-- Model of `String.trim()`. -/
def strTrim (s : String) : String :=
  String.mk (((s.data.dropWhile (wsChar · = true)).reverse.dropWhile
    (wsChar · = true)).reverse)

/-- Decidable list-prefix test on characters. -/
def listPfx : List Char → List Char → Bool
  | [], _ => true
  | _ :: _, [] => false
  | a :: as, b :: bs => a == b && listPfx as bs

/-- Decidable substring (infix) test on characters. -/
def listInf (p : List Char) : List Char → Bool
  | [] => listPfx p []
  | c :: cs => listPfx p (c :: cs) || listInf p cs

/-- Model of `hay.includes(needle)`. -/
def containsSub (needle hay : String) : Bool := listInf needle.data hay.data

/-- A regex alternation of literal words, as a substring test: JS
`/w1|w2|.../.test(s)`. -/
def containsAny (pats : List String) (s : String) : Bool :=
  pats.any (fun p => containsSub p s)

/-! ## Graph store: queryNodes, getConnectedNodes, calculateStats -/

/-- Model of `QueryCondition` from CopilotEngine. The JS `undefined`/`null` guard on `achieved` collapses to `none`; the explicit-null case of `modelType` is `some none`. -/
structure QueryCondition where
  category : Option (List String)
  achieved : Option Bool
  modelType : Option (Option String)
  level : Option Nat
  hasModel : Option Bool
  nodeIds : Option (List String)

/-- Model of `CopilotEngine.queryNodes`: AND-composition of the six optional
filters, in source order. A kpi-only filter compared against a node
without metrics is false (JS `undefined === x` is false for the compared
values). -/
def queryNodes (eng : Engine) (c : QueryCondition) : List Node :=
  let r := eng.nodes
  let r := match c.category with
    | some cats => if 0 < cats.length
        then r.filter (fun n => cats.contains n.data.category) else r
    | none => r
  let r := match c.achieved with
    | some b => r.filter (fun n => n.data.category == "kpi" &&
        (match n.data.metrics with
          | some m => m.achieved == b
          | none => false))
    | none => r
  let r := match c.modelType with
    | some mt => r.filter (fun n => n.data.category == "kpi" &&
        (match n.data.metrics with
          | some m => m.modelType == mt
          | none => false))
    | none => r
  let r := match c.level with
    | some lv => r.filter (fun n => n.data.level == some lv)
    | none => r
  let r := match c.hasModel with
    | some hm => r.filter (fun n => n.data.category == "kpi" &&
        (truthyStr (metricsModelType n.data.metrics) == hm))
    | none => r
  match c.nodeIds with
  | some ids => if 0 < ids.length then r.filter (fun n => ids.contains n.id) else r
  | none => r

/-- The condition category = [kpi] used throughout AdvancedAnalyzer. -/
def kpiCond : QueryCondition := ⟨some ["kpi"], none, none, none, none, none⟩

/-- JS `Set.add`: append if not already present (preserves insertion
order, deduplicates). -/
def addElem (l : List String) (x : String) : List String :=
  if x ∈ l then l else l ++ [x]

/-- Direction argument of `getConnectedNodes`. -/
inductive CDir
  | incoming
  | outgoing
  | both
deriving DecidableEq

/-- Model of `CopilotEngine.getConnectedNodes`: one-hop neighbor ids collected from
the edge list, then resolved against the node snapshot. -/
def getConnectedNodes (eng : Engine) (nodeId : String) (dir : CDir) : List Node :=
  let connectedIds := eng.edges.foldl (fun acc e =>
    let acc := if (dir = .incoming ∨ dir = .both) ∧ e.target = nodeId
      then addElem acc e.source else acc
    if (dir = .outgoing ∨ dir = .both) ∧ e.source = nodeId
      then addElem acc e.target else acc) []
  eng.nodes.filter (fun n => connectedIds.contains n.id)

/-- The fixed status histogram of `calculateStats`. The source object key
`partial` is a reserved word here and is modelled as `partialCnt` (the
source never increments it). -/
structure ByStatus where
  achieved : Nat
  unachieved : Nat
  partialCnt : Nat
  withModel : Nat
  withoutModel : Nat
deriving DecidableEq

/-- Model of `byCategory[cat] = (byCategory[cat] || 0) + 1` on an insertion-ordered
record, modelled as an association list. -/
def bumpCount : List (String × Nat) → String → List (String × Nat)
  | [], k => [(k, 1)]
  | (k2, v) :: rest, k =>
    if k2 = k then (k2, v + 1) :: rest else (k2, v) :: bumpCount rest k

/-- Result record of `calculateStats`. -/
structure Stats where
  total : Nat
  byCategory : List (String × Nat)
  byStatus : ByStatus

/-- One `forEach` step of `calculateStats`: always bump the category
histogram; bump the status histogram only for kpi nodes that carry a
(truthy) metrics record. -/
def statsFold (acc : List (String × Nat) × ByStatus) (n : Node) :
    List (String × Nat) × ByStatus :=
  let bc := bumpCount acc.1 n.data.category
  let bs :=
    if n.data.category = "kpi" then
      match n.data.metrics with
      | some m =>
        let s1 := if m.achieved
          then { acc.2 with achieved := acc.2.achieved + 1 }
          else { acc.2 with unachieved := acc.2.unachieved + 1 }
        if truthyStr m.modelType
          then { s1 with withModel := s1.withModel + 1 }
          else { s1 with withoutModel := s1.withoutModel + 1 }
      | none => acc.2
    else acc.2
  (bc, bs)

/-- Model of `CopilotEngine.calculateStats` applied to an explicit node list (the
source default `nodes ?? this.nodes` is resolved by the caller). -/
def calculateStats (nodes : List Node) : Stats :=
  let acc := nodes.foldl statsFold ([], ⟨0, 0, 0, 0, 0⟩)
  ⟨nodes.length, acc.1, acc.2⟩

/-! ## Traversals: traceChain, traceImpact, traceDependencies

The three source traversals share one recursion shape: expand an
unvisited node by scanning the edge array once per direction pass, and
for every edge that matches the pass direction (and, for `traceChain`
only, whose far endpoint is unvisited) record the edge id and far
endpoint and recurse into the far endpoint.  `traverseG` is that shape;
each wrapper instantiates the passes and the guard exactly as its source
function writes them, and supplies fuel that the stabilisation theorems
prove sufficient. -/

/-- A direction pass: `inc` scans for `edge.target === nodeId` (following
the edge backwards to its source), `out` for `edge.source === nodeId`. -/
inductive Dir
  | inc
  | out
deriving DecidableEq

/-- For a pass direction and edge at the current node: does the edge fire,
and what is the far endpoint. -/
def matchDir : Dir → Edge → String → Bool × String
  | .inc, e, u => (e.target == u, e.source)
  | .out, e, u => (e.source == u, e.target)

/-- The sequence of (pass, edge) examinations one node expansion performs:
for each pass direction in order, the whole edge array in order. -/
def expandList (dirs : List Dir) (edges : List Edge) : List (Dir × Edge) :=
  dirs.flatMap (fun d => edges.map (fun e => (d, e)))

/-- Mutable state of one traversal: the `visited`, `relatedNodes` and
`relatedEdges` sets. -/
structure TState where
  visited : List String
  relNodes : List String
  relEdges : List String
deriving DecidableEq

/-- The edge-scanning loop of a node expansion. `step` is the recursive
call into the far endpoint; `g = true` adds the source guard
`!visited.has(far)` (traceChain), `g = false` omits it
(traceImpact/traceDependencies, which record the edge and endpoint
unconditionally and let the recursive call return immediately on visited
nodes). -/
def loopG (step : String → TState → TState) (g : Bool) (u : String) :
    List (Dir × Edge) → TState → TState
  | [], st => st
  | de :: rest, st =>
    loopG step g u rest
      (if (matchDir de.1 de.2 u).1 = true ∧
          (g = true → (matchDir de.1 de.2 u).2 ∉ st.visited) then
        step (matchDir de.1 de.2 u).2
          { st with relNodes := addElem st.relNodes (matchDir de.1 de.2 u).2,
                    relEdges := addElem st.relEdges de.2.id }
      else st)

/-- The `traverse` recursion: return at once on a visited node, otherwise
mark it visited and related and scan the edge array. Fuel only bounds the
recursion depth; wrappers pass enough for the visited-set argument of the
source to apply (see the stabilisation theorems). -/
def traverseG (g : Bool) (dirs : List Dir) (edges : List Edge) :
    Nat → String → TState → TState
  | 0, _, st => st
  | f + 1, u, st =>
    if u ∈ st.visited then st
    else
      loopG (fun v s => traverseG g dirs edges f v s) g u (expandList dirs edges)
        { st with visited := addElem st.visited u,
                  relNodes := addElem st.relNodes u }

/-- Result `{nodes, edges}` of the traversals (the unused optional `paths`
field is omitted). -/
structure ChainResult where
  nodes : List String
  edges : List String
deriving DecidableEq

/-- The two passes of `traceChain`: incoming scan, then outgoing scan. -/
def chainDirs : List Dir := [Dir.inc, Dir.out]

/-- Fuel sufficient for any `traceChain` run: more than the number of ids
that can ever enter the visited set. -/
def chainFuel (eng : Engine) (startIds : List String) : Nat :=
  startIds.length + 2 * eng.edges.length + 1

/-- One step of the `startNodeIds.forEach` loop of `traceChain`: ids
absent from the node snapshot are skipped. -/
def chainStep (eng : Engine) (fuel : Nat) (st : TState) (s : String) : TState :=
  if eng.nodes.any (fun n => n.id == s)
    then traverseG true chainDirs eng.edges fuel s st else st

/-- Model of `traceChain` at explicit fuel: each start id that exists in the node
snapshot is traversed with the two-pass guarded expansion. -/
def traceChainFuel (eng : Engine) (fuel : Nat) (startIds : List String) :
    ChainResult :=
  let final := startIds.foldl (chainStep eng fuel) ⟨[], [], []⟩
  ⟨final.relNodes, final.relEdges⟩

/-- Model of `CopilotEngine.traceChain`. -/
def traceChain (eng : Engine) (startIds : List String) : ChainResult :=
  traceChainFuel eng (chainFuel eng startIds) startIds

/-- Fuel sufficient for a single-root traversal. -/
def upFuel (eng : Engine) : Nat := 2 * eng.edges.length + 1

/-- Model of `traceImpact` at explicit fuel: unguarded incoming-only expansion,
started at `nodeId` without consulting the node snapshot. -/
def traceImpactFuel (eng : Engine) (fuel : Nat) (nodeId : String) : ChainResult :=
  let final := traverseG false [Dir.inc] eng.edges fuel nodeId ⟨[], [], []⟩
  ⟨final.relNodes, final.relEdges⟩

/-- Model of `CopilotEngine.traceImpact`. -/
def traceImpact (eng : Engine) (nodeId : String) : ChainResult :=
  traceImpactFuel eng (upFuel eng) nodeId

/-- Model of `traceDependencies` at explicit fuel: unguarded outgoing-only
expansion. -/
def traceDepsFuel (eng : Engine) (fuel : Nat) (nodeId : String) : ChainResult :=
  let final := traverseG false [Dir.out] eng.edges fuel nodeId ⟨[], [], []⟩
  ⟨final.relNodes, final.relEdges⟩

/-- Model of `CopilotEngine.traceDependencies`. -/
def traceDependencies (eng : Engine) (nodeId : String) : ChainResult :=
  traceDepsFuel eng (upFuel eng) nodeId

/-! ## Reachability relations (specification side of the traversals) -/

/-- One traversal step at `u`: some pass direction and some edge fire and
lead to `v`. -/
def nbrP (dirs : List Dir) (edges : List Edge) (u v : String) : Prop :=
  ∃ d ∈ dirs, ∃ e ∈ edges, (matchDir d e u).1 = true ∧ (matchDir d e u).2 = v

/-- Transitive-reflexive closure of the traversal step. -/
def ReachG (dirs : List Dir) (edges : List Edge) : String → String → Prop :=
  Relation.ReflTransGen (nbrP dirs edges)

/-- A directed edge step `u → v`. -/
def EStep (edges : List Edge) (u v : String) : Prop :=
  ∃ e ∈ edges, e.source = u ∧ e.target = v

/-- An edge step in either direction (directed edge viewed as
undirected). -/
def WeakStep (edges : List Edge) (u v : String) : Prop :=
  ∃ e ∈ edges, (e.source = u ∧ e.target = v) ∨ (e.source = v ∧ e.target = u)

/-- Weak reachability: `v` lies in the weakly-connected component of `u`. -/
def WeakReach (eng : Engine) (u v : String) : Prop :=
  Relation.ReflTransGen (WeakStep eng.edges) u v

/-- Downstream reachability: a directed path `u →* v`. -/
def DownReach (eng : Engine) (u v : String) : Prop :=
  Relation.ReflTransGen (EStep eng.edges) u v

/-- A start id exists in the node snapshot. -/
def nodeExists (eng : Engine) (s : String) : Prop := ∃ n ∈ eng.nodes, n.id = s

/-- Componentwise set-inclusion of traversal states. -/
def TState.Sub (s t : TState) : Prop :=
  s.visited ⊆ t.visited ∧ s.relNodes ⊆ t.relNodes ∧ s.relEdges ⊆ t.relEdges

/-- Model of `r` extends `base` and every node first visited inside `r` has all its
traversal neighbors inside `r` (nodes of `base` may still be
unexpanded). -/
def Closed (dirs : List Dir) (edges : List Edge) (base r : TState) : Prop :=
  ∀ w ∈ r.visited, w ∈ base.visited ∨ ∀ v, nbrP dirs edges w v → v ∈ r.visited

/-- The id universe of a `traceChain` run: start ids and all edge
endpoints — everything that can ever enter the visited set. -/
def chainU (eng : Engine) (startIds : List String) : Finset String :=
  (startIds ++ (eng.edges.map Edge.source ++ eng.edges.map Edge.target)).toFinset

/-- The id universe of a single-root traversal. -/
def rootU (eng : Engine) (x : String) : Finset String :=
  insert x ((eng.edges.map Edge.source ++ eng.edges.map Edge.target)).toFinset

/-! ## A stable sort (model of JS `Array.prototype.sort`)

Since ES2019 `Array.prototype.sort` is required to be stable; for a
consistent comparator its result is the unique stable reordering in which
`compare(a, b) <= 0` holds for adjacent elements.  A stable insertion
sort computes exactly that reordering and, unlike the library merge sort,
reduces in the kernel. -/

/-- Insert `x` before the first element `y` with `le x y`. -/
def insSorted (le : α → α → Bool) (x : α) : List α → List α
  | [] => [x]
  | y :: ys => if le x y then x :: y :: ys else y :: insSorted le x ys

/-- Stable insertion sort. -/
def sortL (le : α → α → Bool) (l : List α) : List α := l.foldr (insSorted le) []

/-! ## AdvancedAnalyzer: analyzeCorrelations -/

/-- JS `new Set(list)` as an insertion-ordered deduplicated list. -/
def dedupL (l : List String) : List String := l.foldl addElem []

/-- The deduplicated ids of the outgoing one-hop neighbors of `nid` whose
category is `cat` (the `design1`/`verify1` sets of
`analyzeCorrelations`). -/
def outgoingCatIds (eng : Engine) (nid : String) (cat : String) : List String :=
  dedupL (((getConnectedNodes eng nid .outgoing).filter
    (fun n => n.data.category == cat)).map (fun n => n.id))

/-- Model of `Array.from(set1).filter(id => set2.has(id))`: the shared outgoing
`cat`-neighbors of two kpi ids. -/
def sharedOf (eng : Engine) (id1 id2 cat : String) : List String :=
  (outgoingCatIds eng id1 cat).filter
    (fun i => (outgoingCatIds eng id2 cat).contains i)

/-- One `CorrelationAnalysis` record; the nested source objects
`kpi1: {id, name, achieved}` objects are flattened into fields. -/
structure CorrelationAnalysis where
  kpi1Id : String
  kpi1Name : String
  kpi1Achieved : Bool
  kpi2Id : String
  kpi2Name : String
  kpi2Achieved : Bool
  sharedDesignParams : Nat
  sharedVerifications : Nat
  correlationStrength : String
  insight : String
deriving DecidableEq

/-- Model of `generateCorrelationInsight` (the unused local `both` of the source is
dropped; its branch is the final `else`). -/
def corrInsight (k1 k2 : Node) (sharedDesign : Nat) : String :=
  let neither := !metricsAchieved k1.data.metrics && !metricsAchieved k2.data.metrics
  let oneAchieved := metricsAchieved k1.data.metrics != metricsAchieved k2.data.metrics
  if 2 ≤ sharedDesign then
    if neither then "共享多个设计参数，两个指标都未达成，建议优先优化共享参数"
    else if oneAchieved then "共享设计参数但达成情况不同，可能存在其他影响因素"
    else "共享设计参数且都已达成，设计方案有效"
  else "存在关联，建议综合考虑"

/-- The record `analyzeCorrelations` pushes for the pair `(k1, k2)`. -/
def mkCorr (eng : Engine) (k1 k2 : Node) : CorrelationAnalysis :=
  let sd := (sharedOf eng k1.id k2.id "design").length
  let sv := (sharedOf eng k1.id k2.id "verify").length
  { kpi1Id := k1.id
    kpi1Name := k1.data.label
    kpi1Achieved := metricsAchieved k1.data.metrics
    kpi2Id := k2.id
    kpi2Name := k2.data.label
    kpi2Achieved := metricsAchieved k2.data.metrics
    sharedDesignParams := sd
    sharedVerifications := sv
    correlationStrength :=
      if 2 ≤ sd then "strong" else if 1 ≤ sd then "medium" else "weak"
    insight := corrInsight k1 k2 sd }

/-- The ordered pairs `(kpis[i], kpis[j])`, `i < j`, of the double loop. -/
def pairsAfter : List α → List (α × α)
  | [] => []
  | x :: xs => xs.map (fun y => (x, y)) ++ pairsAfter xs

/-- The unsorted correlation list: a record for exactly the pairs with a
non-empty shared design or verify neighbor set. -/
def corrPairs (eng : Engine) : List CorrelationAnalysis :=
  (pairsAfter (queryNodes eng kpiCond)).filterMap (fun p =>
    if 0 < (sharedOf eng p.1.id p.2.id "design").length ∨
       0 < (sharedOf eng p.1.id p.2.id "verify").length
    then some (mkCorr eng p.1 p.2) else none)

/-- The comparator `(a, b) => b.sharedDesignParams - a.sharedDesignParams`
as a `≤`-test: nonpositive iff `b.sharedDesignParams ≤ a.sharedDesignParams`. -/
def corrLe (a b : CorrelationAnalysis) : Bool :=
  decide (b.sharedDesignParams ≤ a.sharedDesignParams)

/-- Model of `AdvancedAnalyzer.analyzeCorrelations`. -/
def analyzeCorrelations (eng : Engine) : List CorrelationAnalysis :=
  sortL corrLe (corrPairs eng)

/-! ## AdvancedAnalyzer: prioritizeNodes -/

/-- One entry of the `prioritizeNodes` result. -/
structure PriorityEntry where
  nodeId : String
  nodeName : String
  category : String
  priorityScore : Nat
  reasons : List String
deriving DecidableEq

/-- The additive score of one kpi: +50 unachieved, +30 no model, +20 no
outgoing verify neighbor, +10 level 1, plus the capped downstream-closure
size `Math.min(traceDependencies(id).nodes.size, 20)`. -/
def prioScore (eng : Engine) (kpi : Node) : Nat :=
  (if !metricsAchieved kpi.data.metrics then 50 else 0) +
  (if !truthyStr (metricsModelType kpi.data.metrics) then 30 else 0) +
  (if !((getConnectedNodes eng kpi.id .outgoing).any
      (fun n => n.data.category == "verify")) then 20 else 0) +
  (if kpi.data.level == some 1 then 10 else 0) +
  min (traceDependencies eng kpi.id).nodes.length 20

/-- The reason strings pushed alongside the score. -/
def prioReasons (eng : Engine) (kpi : Node) : List String :=
  (if !metricsAchieved kpi.data.metrics then ["指标未达成"] else []) ++
  (if !truthyStr (metricsModelType kpi.data.metrics) then ["缺少模型"] else []) ++
  (if !((getConnectedNodes eng kpi.id .outgoing).any
      (fun n => n.data.category == "verify")) then ["缺少验证"] else []) ++
  (if kpi.data.level == some 1 then ["一级指标"] else []) ++
  (if 5 < (traceDependencies eng kpi.id).nodes.length
    then ["影响" ++ toString (traceDependencies eng kpi.id).nodes.length ++ "个节点"]
    else [])

/-- The comparator `(a, b) => b.priorityScore - a.priorityScore` as a
`≤`-test. -/
def prioLe (a b : PriorityEntry) : Bool :=
  decide (b.priorityScore ≤ a.priorityScore)

/-- Model of `AdvancedAnalyzer.prioritizeNodes`: score every kpi node, keep the
positive scores, sort descending. -/
def prioritizeNodes (eng : Engine) : List PriorityEntry :=
  let kpis := queryNodes eng kpiCond
  let priorities := kpis.filterMap (fun kpi =>
    if 0 < prioScore eng kpi then
      some ⟨kpi.id, kpi.data.label, kpi.data.category,
            prioScore eng kpi, prioReasons eng kpi⟩
    else none)
  sortL prioLe priorities

/-! ## Query parser (parseQuery) -/

/-- The `QueryIntent` union type. -/
inductive QueryIntent
  | query_stats
  | query_nodes
  | trace_chain
  | analyze_impact
  | find_issues
  | suggest
  | compare
  | correlation
  | health_check
  | prioritize
  | unknown
deriving DecidableEq

/-- The `Entity.type` union. -/
inductive EntityType
  | node_id
  | category
  | status
  | model_type
  | level
  | metric
  | relationship
deriving DecidableEq

/-- An extracted entity. The optional source field `confidence` is always set
at every push site, so it is modelled as a plain field. -/
structure Entity where
  etype : EntityType
  value : String
  confidence : ℚ
deriving DecidableEq

/-- Result of `parseQuery`. -/
structure ParsedQuery where
  rawQuery : String
  intent : QueryIntent
  entities : List Entity
  confidence : ℚ

/-- Model of `query.toLowerCase().trim()`. -/
def normalizeQ (q : String) : String := strTrim (strLower q)

/-- Keyword tests of the intent cascade, one per regex literal
alternation of the source, in source order. -/
def statsTest (s : String) : Bool :=
  containsAny ["统计", "多少", "几个", "数量", "占比", "比例", "百分"] s

/-- Model of `/链路|路径|追踪|关系/`. -/
def chainTest (s : String) : Bool := containsAny ["链路", "路径", "追踪", "关系"] s

/-- Model of `/影响|波及|连带/`. -/
def impactTest (s : String) : Bool := containsAny ["影响", "波及", "连带"] s

/-- Model of `/问题|瓶颈|风险|缺失|缺少/`. -/
def issueTest (s : String) : Bool :=
  containsAny ["问题", "瓶颈", "风险", "缺失", "缺少"] s

/-- Model of `/建议|推荐|优化|改进/`. -/
def suggestTest (s : String) : Bool := containsAny ["建议", "推荐", "优化", "改进"] s

/-- Model of `/对比|比较|差异/`. -/
def compareTest (s : String) : Bool := containsAny ["对比", "比较", "差异"] s

/-- Model of `/相关|关联/`. -/
def correlTest (s : String) : Bool := containsAny ["相关", "关联"] s

/-- Model of `/健康|评估|诊断/`. -/
def healthTest (s : String) : Bool := containsAny ["健康", "评估", "诊断"] s

/-- Model of `/优先级|排序|重要/`. -/
def priorityTest (s : String) : Bool := containsAny ["优先级", "排序", "重要"] s

/-- Model of `/显示|查看|列出|找出/`. -/
def displayTest (s : String) : Bool := containsAny ["显示", "查看", "列出", "找出"] s

/-- The intent cascade of `parseQuery`, written exactly as the source if/else-if chain over the normalized query. -/
def intentOf (nq : String) : QueryIntent × ℚ :=
  if statsTest nq then (.query_stats, 0.9)
  else if chainTest nq then (.trace_chain, 0.9)
  else if impactTest nq then (.analyze_impact, 0.9)
  else if issueTest nq then (.find_issues, 0.8)
  else if suggestTest nq then (.suggest, 0.8)
  else if compareTest nq then (.compare, 0.8)
  else if correlTest nq then (.correlation, 0.8)
  else if healthTest nq then (.health_check, 0.9)
  else if priorityTest nq then (.prioritize, 0.8)
  else if displayTest nq then (.query_nodes, 0.7)
  else (.unknown, 0.5)

/-- The same cascade as an ordered rule list (predicate, intent,
confidence) — the description of the classifier given by the spec. -/
def intentRules : List ((String → Bool) × QueryIntent × ℚ) :=
  [(statsTest, .query_stats, 0.9),
   (chainTest, .trace_chain, 0.9),
   (impactTest, .analyze_impact, 0.9),
   (issueTest, .find_issues, 0.8),
   (suggestTest, .suggest, 0.8),
   (compareTest, .compare, 0.8),
   (correlTest, .correlation, 0.8),
   (healthTest, .health_check, 0.9),
   (priorityTest, .prioritize, 0.8),
   (displayTest, .query_nodes, 0.7)]

/-- First-match-wins evaluation of an ordered rule list, falling through
to `unknown`/0.5. -/
def firstRule : List ((String → Bool) × QueryIntent × ℚ) → String →
    QueryIntent × ℚ
  | [], _ => (.unknown, 0.5)
  | r :: rs, q => if r.1 q then (r.2.1, r.2.2) else firstRule rs q

/-! ### Entity extraction

The node-id pattern of the source is
`query.match(/\b([A-Z_]+\d*)\b/g)` followed by a
`/^(KPI_|D_|V_|G_)/` filter.  Because `[A-Z_]` and `\d` are word
characters, a substring match of `[A-Z_]+\d*` flanked by `\b` must start
and end at non-word characters (or the string ends): backtracking can
never stop inside a maximal word-character run, since the character after
any shorter candidate is a word character and kills the trailing `\b`.
Hence the global matches are exactly the maximal word-character runs
(tokens) of the raw query that wholly have the shape
`[A-Z_]+[0-9]*` — in particular a mixed-case token such as
`KPI_FoldTime` is NOT matched. -/

/-- JS regex word character `[A-Za-z0-9_]` (CJK characters are not word
characters). -/
def wordChar (c : Char) : Bool :=
  (65 ≤ c.toNat && c.toNat ≤ 90) || (97 ≤ c.toNat && c.toNat ≤ 122) ||
  (48 ≤ c.toNat && c.toNat ≤ 57) || c == '_'

/-- Split into maximal word-character runs; `acc` is the current run,
reversed. -/
def tokensAux : List Char → List Char → List String
  | [], acc => if acc.isEmpty then [] else [String.mk acc.reverse]
  | c :: cs, acc =>
    if wordChar c then tokensAux cs (c :: acc)
    else if acc.isEmpty then tokensAux cs []
    else String.mk acc.reverse :: tokensAux cs []

/-- The `\b`-delimited word tokens of a string, in order. -/
def wordTokens (s : String) : List String := tokensAux s.data []

/-- Model of `[A-Z_]` (the characters the source pattern allows before digits). -/
def upChar (c : Char) : Bool := (65 ≤ c.toNat && c.toNat ≤ 90) || c == '_'

/-- Model of `[0-9]`. -/
def digChar (c : Char) : Bool := 48 ≤ c.toNat && c.toNat ≤ 57

/-- Whole-token test for `^[A-Z_]+\d*$`. -/
def upperShape (l : List Char) : Bool :=
  !(l.takeWhile (upChar · = true)).isEmpty &&
    (l.dropWhile (upChar · = true)).all digChar

/-- The `/^(KPI_|D_|V_|G_)/` filter. -/
def hasNodeIdStart (t : String) : Bool :=
  listPfx "KPI_".data t.data || listPfx "D_".data t.data ||
  listPfx "V_".data t.data || listPfx "G_".data t.data

/-- Rule 1 of entity extraction: node-id-shaped tokens of the RAW query
with one of the four prefixes, pushed verbatim with confidence 0.95. -/
def nodeIdEntities (q : String) : List Entity :=
  ((wordTokens q).filter (fun t => upperShape t.data)).filterMap
    (fun t => if hasNodeIdStart t then some ⟨.node_id, t, 0.95⟩ else none)

/-- Rule 2: the fixed alias dictionary, in source (insertion) order. -/
def aliasTable : List (String × String) :=
  [("折叠时间", "KPI_FoldTime"),
   ("空间收益", "KPI_SpaceGain"),
   ("用户体验", "KPI_UX"),
   ("安全性", "KPI_Safety"),
   ("nvh", "KPI_NVH"),
   ("成本", "KPI_Cost"),
   ("可靠性", "KPI_Reliability"),
   ("电机扭矩", "D_MotorTorque"),
   ("控制算法", "D_ControlAlgo")]

/-- Alias hits: `normalizedQuery.includes(alias.toLowerCase())`, pushed as
canonical node ids with confidence 0.9. -/
def aliasEntities (nq : String) : List Entity :=
  aliasTable.filterMap (fun p =>
    if containsSub (strLower p.1) nq then some ⟨.node_id, p.2, 0.9⟩ else none)

/-- Rule 3: status keywords (else-if chain). -/
def statusEntities (nq : String) : List Entity :=
  if containsAny ["未达成", "未完成", "不达标"] nq then [⟨.status, "unachieved", 0.9⟩]
  else if containsAny ["已达成", "完成", "达标"] nq then [⟨.status, "achieved", 0.9⟩]
  else []

/-- Rule 4: model-type keywords (else-if chain; the source pattern
`/非?模型|没有模型/` matches exactly the strings containing `模型`). -/
def modelTypeEntities (nq : String) : List Entity :=
  if containsAny ["sysml", "系统建模"] nq then [⟨.model_type, "sysml", 0.95⟩]
  else if containsAny ["simulink", "仿真"] nq then [⟨.model_type, "simulink", 0.95⟩]
  else if containsSub "modelica" nq then [⟨.model_type, "modelica", 0.95⟩]
  else if containsSub "fmu" nq then [⟨.model_type, "fmu", 0.95⟩]
  else if containsSub "模型" nq then [⟨.model_type, "none", 0.9⟩]
  else []

/-- Model of `/level\s*d/` for a digit `d`: `level`, then greedy whitespace, then
`d`, anywhere in the list. -/
def litMatch : List Char → List Char → Option (List Char)
  | [], rest => some rest
  | _ :: _, [] => none
  | p :: ps, c :: cs => if p == c then litMatch ps cs else none

/-- Does `level\s*d` match starting exactly here? -/
def levelAt (d : Char) (l : List Char) : Bool :=
  match litMatch "level".data l with
  | some rest =>
    match rest.dropWhile (fun c => wsChar c = true) with
    | c :: _ => c == d
    | [] => false
  | none => false

/-- Does `level\s*d` match anywhere? -/
def hasLevelNum (d : Char) : List Char → Bool
  | [] => false
  | c :: cs => levelAt d (c :: cs) || hasLevelNum d cs

/-- Rule 5: level keywords (else-if chain). -/
def levelEntities (nq : String) : List Entity :=
  if containsAny ["一级", "1级"] nq || hasLevelNum '1' nq.data
    then [⟨.level, "1", 0.9⟩]
  else if containsAny ["二级", "2级"] nq || hasLevelNum '2' nq.data
    then [⟨.level, "2", 0.9⟩]
  else []

/-- Rule 6: category keywords (else-if chain; `/指标|kpi/i` on the
already-lowercased query is a plain `kpi` substring test). -/
def categoryEntities (nq : String) : List Entity :=
  if containsSub "目标" nq then [⟨.category, "goal", 0.9⟩]
  else if containsAny ["指标", "kpi"] nq then [⟨.category, "kpi", 0.9⟩]
  else if containsAny ["设计", "参数"] nq then [⟨.category, "design", 0.9⟩]
  else if containsAny ["验证", "仿真"] nq then [⟨.category, "verify", 0.9⟩]
  else []

/-- All entities, accumulated in the push order of the source. -/
def entityList (q nq : String) : List Entity :=
  nodeIdEntities q ++ aliasEntities nq ++ statusEntities nq ++
  modelTypeEntities nq ++ levelEntities nq ++ categoryEntities nq

/-- Model of `parseQuery`. -/
def parseQuery (q : String) : ParsedQuery :=
  let nq := normalizeQ q
  let ic := intentOf nq
  ⟨q, ic.1, entityList q nq, ic.2⟩

/-! ## Concrete test snapshots (used by witnesses and counterexamples) -/

/-- Minimal node payload of a given category. -/
def nd (cat : String) : NodeData := ⟨cat, none, "", none⟩

/-- Two nodes on a directed 2-cycle `X→Y`, `Y→X`. -/
def cycEng : Engine :=
  ⟨[⟨"X", nd "kpi"⟩, ⟨"Y", nd "kpi"⟩], [⟨"exy", "X", "Y"⟩, ⟨"eyx", "Y", "X"⟩]⟩

/-- The line `A→B→C`. -/
def lineEng : Engine :=
  ⟨[⟨"A", nd "design"⟩, ⟨"B", nd "kpi"⟩, ⟨"C", nd "verify"⟩],
   [⟨"e1", "A", "B"⟩, ⟨"e2", "B", "C"⟩]⟩

/-- The triangle with edge list order `e1: A→B, e2: A→C, e3: B→C`. -/
def triEng : Engine :=
  ⟨[⟨"A", nd "kpi"⟩, ⟨"B", nd "kpi"⟩, ⟨"C", nd "kpi"⟩],
   [⟨"e1", "A", "B"⟩, ⟨"e2", "A", "C"⟩, ⟨"e3", "B", "C"⟩]⟩

/-- A snapshot with one node and no edges ("ghost" is not a node id). -/
def ghostEng : Engine := ⟨[⟨"A", nd "kpi"⟩], []⟩

/-- A snapshot with a dangling edge into the absent id "x". -/
def dangEng : Engine := ⟨[⟨"A", nd "kpi"⟩], [⟨"e1", "A", "x"⟩]⟩

/-- A kpi node carrying no metrics record. -/
def noMetricsKpi : Node := ⟨"K0", ⟨"kpi", none, "K0", none⟩⟩

/-- Two kpi nodes sharing exactly two design neighbors and no verify
neighbors. -/
def corrEng : Engine :=
  ⟨[⟨"K1", nd "kpi"⟩, ⟨"K2", nd "kpi"⟩, ⟨"Dp1", nd "design"⟩, ⟨"Dp2", nd "design"⟩],
   [⟨"c1", "K1", "Dp1"⟩, ⟨"c2", "K1", "Dp2"⟩, ⟨"c3", "K2", "Dp1"⟩, ⟨"c4", "K2", "Dp2"⟩]⟩

/-- One level-1 kpi without metrics feeding one design node. -/
def prioEng : Engine :=
  ⟨[⟨"K1", ⟨"kpi", some 1, "K1", none⟩⟩, ⟨"D1", nd "design"⟩],
   [⟨"pe1", "K1", "D1"⟩]⟩

/-! # Theorems -/

/-! ## Basic lemmas -/

theorem mem_addElem {l : List String} {x a : String} :
    a ∈ addElem l x ↔ a ∈ l ∨ a = x := by
  unfold addElem
  split
  · next h =>
    constructor
    · exact Or.inl
    · rintro (h1 | rfl)
      · exact h1
      · exact h
  · simp [List.mem_append]

theorem subset_addElem {l : List String} {x : String} : l ⊆ addElem l x :=
  fun _ ha => mem_addElem.mpr (Or.inl ha)

theorem mem_addElem_self {l : List String} {x : String} : x ∈ addElem l x :=
  mem_addElem.mpr (Or.inr rfl)

theorem TState.Sub.refl (s : TState) : s.Sub s :=
  ⟨Set.Subset.rfl, Set.Subset.rfl, Set.Subset.rfl⟩

theorem TState.Sub.trans {s t u : TState} (h1 : s.Sub t) (h2 : t.Sub u) :
    s.Sub u :=
  ⟨h1.1.trans h2.1, h1.2.1.trans h2.2.1, h1.2.2.trans h2.2.2⟩

theorem Closed.self (dirs : List Dir) (edges : List Edge) (s : TState) :
    Closed dirs edges s s := fun _ hw => Or.inl hw

theorem Closed.compose {dirs : List Dir} {edges : List Edge}
    {s m r : TState} (h1 : Closed dirs edges s m) (h2 : Closed dirs edges m r)
    (hmr : m.visited ⊆ r.visited) : Closed dirs edges s r := by
  intro w hw
  rcases h2 w hw with hm | hcl
  · rcases h1 w hm with hs | hcl
    · exact Or.inl hs
    · exact Or.inr fun v hv => hmr (hcl v hv)
  · exact Or.inr hcl

theorem mem_expandList {dirs : List Dir} {edges : List Edge}
    {de : Dir × Edge} :
    de ∈ expandList dirs edges ↔ de.1 ∈ dirs ∧ de.2 ∈ edges := by
  rcases de with ⟨d, e⟩
  simp [expandList]

theorem nbrP_iff_expand {dirs : List Dir} {edges : List Edge}
    {u v : String} :
    nbrP dirs edges u v ↔
      ∃ de ∈ expandList dirs edges,
        (matchDir de.1 de.2 u).1 = true ∧ (matchDir de.1 de.2 u).2 = v := by
  constructor
  · rintro ⟨d, hd, e, he, hm⟩
    exact ⟨(d, e), mem_expandList.mpr ⟨hd, he⟩, hm⟩
  · rintro ⟨de, hde, hm⟩
    rcases mem_expandList.mp hde with ⟨hd, he⟩
    exact ⟨de.1, hd, de.2, he, hm⟩

/-- The far endpoint of any edge is one of its endpoints. -/
theorem matchDir_snd (d : Dir) (e : Edge) (u : String) :
    (matchDir d e u).2 = e.source ∨ (matchDir d e u).2 = e.target := by
  cases d
  · exact Or.inl rfl
  · exact Or.inr rfl

theorem card_sdiff_le_of_subset {U : Finset String} {a b : List String}
    (h : a ⊆ b) : (U \ b.toFinset).card ≤ (U \ a.toFinset).card := by
  apply Finset.card_le_card
  apply Finset.sdiff_subset_sdiff (le_refl U)
  intro x hx
  exact List.mem_toFinset.mpr (h (List.mem_toFinset.mp hx))

theorem card_sdiff_addElem_lt (U : Finset String) (l : List String)
    {u : String} (hu : u ∈ U) (hnl : u ∉ l) :
    (U \ (addElem l u).toFinset).card < (U \ l.toFinset).card := by
  apply Finset.card_lt_card
  have hsub : U \ (addElem l u).toFinset ⊆ U \ l.toFinset :=
    Finset.sdiff_subset_sdiff (le_refl U)
      (fun x hx => List.mem_toFinset.mpr (subset_addElem (List.mem_toFinset.mp hx)))
  rw [Finset.ssubset_iff_of_subset hsub]
  exact ⟨u, Finset.mem_sdiff.mpr ⟨hu, fun hc => hnl (List.mem_toFinset.mp hc)⟩,
    fun hc => (Finset.mem_sdiff.mp hc).2 (List.mem_toFinset.mpr mem_addElem_self)⟩

/-- With an empty difference the root is already visited. -/
theorem mem_of_card_sdiff_zero {U : Finset String} {l : List String}
    {u : String} (hu : u ∈ U) (h : (U \ l.toFinset).card ≤ 0) : u ∈ l := by
  by_contra hnl
  have : u ∈ U \ l.toFinset :=
    Finset.mem_sdiff.mpr ⟨hu, fun hc => hnl (List.mem_toFinset.mp hc)⟩
  have := Finset.card_pos.mpr ⟨u, this⟩
  omega

/-! ## Loop lemmas (the edge-scanning loop, parametric in the recursive
step) -/

theorem loopG_mono {step : String → TState → TState} {g : Bool} {u : String}
    (hstep : ∀ v s, TState.Sub s (step v s)) :
    ∀ (l : List (Dir × Edge)) (st : TState), TState.Sub st (loopG step g u l st) := by
  intro l
  induction l with
  | nil => intro st; exact TState.Sub.refl st
  | cons de rest ih =>
    intro st
    simp only [loopG]
    by_cases hc : (matchDir de.1 de.2 u).1 = true ∧
        (g = true → (matchDir de.1 de.2 u).2 ∉ st.visited)
    · rw [if_pos hc]
      refine TState.Sub.trans (TState.Sub.trans ?_ (hstep _ _)) (ih _)
      exact ⟨fun a ha => ha, subset_addElem, subset_addElem⟩
    · rw [if_neg hc]
      exact ih st

theorem loopG_sound {step : String → TState → TState} {g : Bool} {u : String}
    (R : String → String → Prop)
    (hstep : ∀ v s a, a ∈ (step v s).visited → a ∈ s.visited ∨ R v a) :
    ∀ (l : List (Dir × Edge)) (st : TState) (a : String),
      a ∈ (loopG step g u l st).visited →
      a ∈ st.visited ∨ ∃ de ∈ l, (matchDir de.1 de.2 u).1 = true ∧
        R (matchDir de.1 de.2 u).2 a := by
  intro l
  induction l with
  | nil => intro st a ha; exact Or.inl ha
  | cons de rest ih =>
    intro st a ha
    simp only [loopG] at ha
    by_cases hc : (matchDir de.1 de.2 u).1 = true ∧
        (g = true → (matchDir de.1 de.2 u).2 ∉ st.visited)
    · rw [if_pos hc] at ha
      rcases ih _ a ha with h1 | ⟨de2, hde2, hfire, hR⟩
      · rcases hstep _ _ a h1 with h2 | hR
        · exact Or.inl h2
        · exact Or.inr ⟨de, List.mem_cons_self de rest, hc.1, hR⟩
      · exact Or.inr ⟨de2, List.mem_cons_of_mem de hde2, hfire, hR⟩
    · rw [if_neg hc] at ha
      rcases ih _ a ha with h1 | ⟨de2, hde2, hfire, hR⟩
      · exact Or.inl h1
      · exact Or.inr ⟨de2, List.mem_cons_of_mem de hde2, hfire, hR⟩

theorem loopG_congr {step step2 : String → TState → TState} {g : Bool}
    {u : String} {edges : List Edge} (U : Finset String) (f : Nat)
    (hU : ∀ e ∈ edges, e.source ∈ U ∧ e.target ∈ U)
    (hmono : ∀ v s, TState.Sub s (step v s))
    (hagree : ∀ v s, v ∈ U → (U \ s.visited.toFinset).card ≤ f →
      step v s = step2 v s) :
    ∀ (l : List (Dir × Edge)) (st : TState), (∀ de ∈ l, de.2 ∈ edges) →
      (U \ st.visited.toFinset).card ≤ f →
      loopG step g u l st = loopG step2 g u l st := by
  intro l
  induction l with
  | nil => intro st _ _; rfl
  | cons de rest ih =>
    intro st hl hcard
    have hde2 : de.2 ∈ edges := hl de (List.mem_cons_self de rest)
    have hvU : (matchDir de.1 de.2 u).2 ∈ U := by
      rcases matchDir_snd de.1 de.2 u with h | h
      · rw [h]; exact (hU de.2 hde2).1
      · rw [h]; exact (hU de.2 hde2).2
    simp only [loopG]
    by_cases hc : (matchDir de.1 de.2 u).1 = true ∧
        (g = true → (matchDir de.1 de.2 u).2 ∉ st.visited)
    · rw [if_pos hc, if_pos hc]
      have hag : step (matchDir de.1 de.2 u).2
          { st with relNodes := addElem st.relNodes (matchDir de.1 de.2 u).2,
                    relEdges := addElem st.relEdges de.2.id } =
          step2 (matchDir de.1 de.2 u).2
          { st with relNodes := addElem st.relNodes (matchDir de.1 de.2 u).2,
                    relEdges := addElem st.relEdges de.2.id } :=
        hagree _ _ hvU hcard
      rw [← hag]
      apply ih
      · exact fun de2 h => hl de2 (List.mem_cons_of_mem de h)
      · exact le_trans (card_sdiff_le_of_subset (hmono _ _).1) hcard
    · rw [if_neg hc, if_neg hc]
      exact ih st (fun de2 h => hl de2 (List.mem_cons_of_mem de h)) hcard

theorem loopG_ad {step : String → TState → TState} {g : Bool} {u : String}
    {dirs : List Dir} {edges : List Edge} (U : Finset String) (f : Nat)
    (hU : ∀ e ∈ edges, e.source ∈ U ∧ e.target ∈ U)
    (hmono : ∀ v s, TState.Sub s (step v s))
    (hin : ∀ v s, v ∈ U → (U \ s.visited.toFinset).card ≤ f →
      v ∈ (step v s).visited)
    (hclosed : ∀ v s, v ∈ U → (U \ s.visited.toFinset).card ≤ f →
      Closed dirs edges s (step v s))
    (hrv : ∀ v s, v ∈ U → (U \ s.visited.toFinset).card ≤ f →
      (∀ a ∈ s.relNodes, a ∈ s.visited ∨ a = v) →
      ∀ a ∈ (step v s).relNodes, a ∈ (step v s).visited) :
    ∀ (l : List (Dir × Edge)) (st : TState), (∀ de ∈ l, de.2 ∈ edges) →
      (U \ st.visited.toFinset).card ≤ f →
      (∀ de ∈ l, (matchDir de.1 de.2 u).1 = true →
        (matchDir de.1 de.2 u).2 ∈ (loopG step g u l st).visited) ∧
      Closed dirs edges st (loopG step g u l st) ∧
      ((∀ a ∈ st.relNodes, a ∈ st.visited) →
        ∀ a ∈ (loopG step g u l st).relNodes, a ∈ (loopG step g u l st).visited) := by
  intro l
  induction l with
  | nil =>
    intro st _ _
    refine ⟨fun de h => absurd h (List.not_mem_nil de), Closed.self _ _ _, fun h => h⟩
  | cons de rest ih =>
    intro st hl hcard
    have hde2 : de.2 ∈ edges := hl de (List.mem_cons_self de rest)
    have hvU : (matchDir de.1 de.2 u).2 ∈ U := by
      rcases matchDir_snd de.1 de.2 u with h | h
      · rw [h]; exact (hU de.2 hde2).1
      · rw [h]; exact (hU de.2 hde2).2
    simp only [loopG]
    by_cases hc : (matchDir de.1 de.2 u).1 = true ∧
        (g = true → (matchDir de.1 de.2 u).2 ∉ st.visited)
    · rw [if_pos hc]
      have h1 := hin (matchDir de.1 de.2 u).2
        { st with relNodes := addElem st.relNodes (matchDir de.1 de.2 u).2,
                  relEdges := addElem st.relEdges de.2.id } hvU hcard
      have hC1 := hclosed (matchDir de.1 de.2 u).2
        { st with relNodes := addElem st.relNodes (matchDir de.1 de.2 u).2,
                  relEdges := addElem st.relEdges de.2.id } hvU hcard
      have hcard2 : (U \ (step (matchDir de.1 de.2 u).2
          { st with relNodes := addElem st.relNodes (matchDir de.1 de.2 u).2,
                    relEdges := addElem st.relEdges de.2.id }).visited.toFinset).card ≤ f :=
        le_trans (card_sdiff_le_of_subset (hmono _ _).1) hcard
      obtain ⟨A, B, C⟩ := ih _ (fun de2 h => hl de2 (List.mem_cons_of_mem de h)) hcard2
      refine ⟨?_, ?_, ?_⟩
      · intro de2 hde hfire
        rcases List.mem_cons.mp hde with rfl | hmem
        · exact (loopG_mono hmono rest _).1 h1
        · exact A de2 hmem hfire
      · exact Closed.compose hC1 B (loopG_mono hmono rest _).1
      · intro hrvpre
        apply C
        refine hrv (matchDir de.1 de.2 u).2
          { st with relNodes := addElem st.relNodes (matchDir de.1 de.2 u).2,
                    relEdges := addElem st.relEdges de.2.id } hvU hcard ?_
        intro a ha
        rcases mem_addElem.mp ha with h | rfl
        · exact Or.inl (hrvpre a h)
        · exact Or.inr rfl
    · rw [if_neg hc]
      obtain ⟨A, B, C⟩ := ih st (fun de2 h => hl de2 (List.mem_cons_of_mem de h)) hcard
      refine ⟨?_, B, C⟩
      intro de2 hde hfire
      rcases List.mem_cons.mp hde with rfl | hmem
      · have hvmem : (matchDir de2.1 de2.2 u).2 ∈ st.visited := by
          by_contra hnv
          exact hc ⟨hfire, fun _ => hnv⟩
        exact (loopG_mono hmono rest st).1 hvmem
      · exact A de2 hmem hfire

theorem loopG_rel_sup {step : String → TState → TState} {g : Bool} {u : String}
    (hstep : ∀ v s, (∀ a ∈ s.visited, a ∈ s.relNodes) →
      ∀ a ∈ (step v s).visited, a ∈ (step v s).relNodes) :
    ∀ (l : List (Dir × Edge)) (st : TState),
      (∀ a ∈ st.visited, a ∈ st.relNodes) →
      ∀ a ∈ (loopG step g u l st).visited, a ∈ (loopG step g u l st).relNodes := by
  intro l
  induction l with
  | nil => intro st h; exact h
  | cons de rest ih =>
    intro st hpre
    simp only [loopG]
    by_cases hc : (matchDir de.1 de.2 u).1 = true ∧
        (g = true → (matchDir de.1 de.2 u).2 ∉ st.visited)
    · rw [if_pos hc]
      apply ih
      apply hstep
      intro a ha
      exact subset_addElem (hpre a ha)
    · rw [if_neg hc]
      exact ih st hpre

/-! ## Traversal lemmas -/

theorem tG_mono (g : Bool) (dirs : List Dir) (edges : List Edge) :
    ∀ (f : Nat) (u : String) (st : TState),
      TState.Sub st (traverseG g dirs edges f u st) := by
  intro f
  induction f with
  | zero => intro u st; exact TState.Sub.refl st
  | succ f ih =>
    intro u st
    simp only [traverseG]
    by_cases hv : u ∈ st.visited
    · rw [if_pos hv]; exact TState.Sub.refl st
    · rw [if_neg hv]
      refine TState.Sub.trans ?_ (loopG_mono (fun v s => ih v s) _ _)
      exact ⟨subset_addElem, subset_addElem, fun a ha => ha⟩

theorem tG_sound (g : Bool) (dirs : List Dir) (edges : List Edge) :
    ∀ (f : Nat) (u : String) (st : TState) (a : String),
      a ∈ (traverseG g dirs edges f u st).visited →
      a ∈ st.visited ∨ ReachG dirs edges u a := by
  intro f
  induction f with
  | zero => intro u st a ha; exact Or.inl ha
  | succ f ih =>
    intro u st a ha
    simp only [traverseG] at ha
    by_cases hv : u ∈ st.visited
    · rw [if_pos hv] at ha; exact Or.inl ha
    · rw [if_neg hv] at ha
      rcases loopG_sound (ReachG dirs edges) (fun v s b hb => ih v s b hb)
        _ _ a ha with h1 | ⟨de, hde, hfire, hR⟩
      · rcases mem_addElem.mp h1 with h | rfl
        · exact Or.inl h
        · exact Or.inr Relation.ReflTransGen.refl
      · refine Or.inr (Relation.ReflTransGen.head ?_ hR)
        exact nbrP_iff_expand.mpr ⟨de, hde, hfire, rfl⟩

theorem tG_ad {g : Bool} {dirs : List Dir} {edges : List Edge}
    (U : Finset String) (hU : ∀ e ∈ edges, e.source ∈ U ∧ e.target ∈ U) :
    ∀ (f : Nat) (u : String) (st : TState), u ∈ U →
      (U \ st.visited.toFinset).card ≤ f →
      u ∈ (traverseG g dirs edges f u st).visited ∧
      Closed dirs edges st (traverseG g dirs edges f u st) ∧
      ((∀ a ∈ st.relNodes, a ∈ st.visited ∨ a = u) →
        ∀ a ∈ (traverseG g dirs edges f u st).relNodes,
          a ∈ (traverseG g dirs edges f u st).visited) := by
  intro f
  induction f with
  | zero =>
    intro u st hu hc
    have hv := mem_of_card_sdiff_zero hu hc
    exact ⟨hv, Closed.self _ _ _,
      fun pre a ha => (pre a ha).elim id (fun h => h ▸ hv)⟩
  | succ f ih =>
    intro u st hu hc
    simp only [traverseG]
    by_cases hv : u ∈ st.visited
    · rw [if_pos hv]
      exact ⟨hv, Closed.self _ _ _,
        fun pre a ha => (pre a ha).elim id (fun h => h ▸ hv)⟩
    · rw [if_neg hv]
      have hcard2 : (U \ (addElem st.visited u).toFinset).card ≤ f := by
        have := card_sdiff_addElem_lt U st.visited hu hv
        omega
      obtain ⟨A, B, C⟩ := loopG_ad U f hU
        (fun v s => tG_mono g dirs edges f v s)
        (fun v s hv2 hc2 => (ih v s hv2 hc2).1)
        (fun v s hv2 hc2 => (ih v s hv2 hc2).2.1)
        (fun v s hv2 hc2 pre => (ih v s hv2 hc2).2.2 pre)
        (expandList dirs edges)
        { st with visited := addElem st.visited u,
                  relNodes := addElem st.relNodes u }
        (fun de h => (mem_expandList.mp h).2) hcard2
      have hmono := @loopG_mono (fun v s => traverseG g dirs edges f v s) g u
        (fun v s => tG_mono g dirs edges f v s) (expandList dirs edges)
        { st with visited := addElem st.visited u,
                  relNodes := addElem st.relNodes u }
      refine ⟨hmono.1 mem_addElem_self, ?_, ?_⟩
      · intro w hw
        rcases B w hw with hw2 | hcl
        · rcases mem_addElem.mp hw2 with h | rfl
          · exact Or.inl h
          · refine Or.inr fun v hnv => ?_
            rcases nbrP_iff_expand.mp hnv with ⟨de, hde, hfire, hveq⟩
            exact hveq ▸ A de hde hfire
        · exact Or.inr hcl
      · intro pre
        apply C
        intro a ha
        rcases mem_addElem.mp ha with h | rfl
        · rcases pre a h with h2 | rfl
          · exact subset_addElem h2
          · exact mem_addElem_self
        · exact mem_addElem_self

theorem tG_stab {g : Bool} {dirs : List Dir} {edges : List Edge}
    (U : Finset String) (hU : ∀ e ∈ edges, e.source ∈ U ∧ e.target ∈ U) :
    ∀ (f : Nat) (u : String) (st : TState), u ∈ U →
      (U \ st.visited.toFinset).card ≤ f →
      traverseG g dirs edges f u st = traverseG g dirs edges (f + 1) u st := by
  intro f
  induction f with
  | zero =>
    intro u st hu hc
    have hv := mem_of_card_sdiff_zero hu hc
    show traverseG g dirs edges 0 u st = traverseG g dirs edges 1 u st
    simp only [traverseG]
    rw [if_pos hv]
  | succ f ih =>
    intro u st hu hc
    show traverseG g dirs edges (f + 1) u st = traverseG g dirs edges (f + 2) u st
    simp only [traverseG]
    by_cases hv : u ∈ st.visited
    · rw [if_pos hv, if_pos hv]
    · rw [if_neg hv, if_neg hv]
      have hcard2 : (U \ (addElem st.visited u).toFinset).card ≤ f := by
        have := card_sdiff_addElem_lt U st.visited hu hv
        omega
      exact loopG_congr U f hU (fun v s => tG_mono g dirs edges f v s)
        (fun v s hv2 hc2 => ih v s hv2 hc2) (expandList dirs edges) _
        (fun de h => (mem_expandList.mp h).2) hcard2

theorem tG_stab_ge {g : Bool} {dirs : List Dir} {edges : List Edge}
    (U : Finset String) (hU : ∀ e ∈ edges, e.source ∈ U ∧ e.target ∈ U)
    (f f2 : Nat) (hle : f ≤ f2) :
    ∀ (u : String) (st : TState), u ∈ U →
      (U \ st.visited.toFinset).card ≤ f →
      traverseG g dirs edges f2 u st = traverseG g dirs edges f u st := by
  induction f2, hle using Nat.le_induction with
  | base => intro u st _ _; rfl
  | succ n hn ih =>
    intro u st hu hc
    rw [← tG_stab U hU n u st hu (le_trans hc hn)]
    exact ih u st hu hc

theorem tG_rel_sup (g : Bool) (dirs : List Dir) (edges : List Edge) :
    ∀ (f : Nat) (u : String) (st : TState),
      (∀ a ∈ st.visited, a ∈ st.relNodes) →
      ∀ a ∈ (traverseG g dirs edges f u st).visited,
        a ∈ (traverseG g dirs edges f u st).relNodes := by
  intro f
  induction f with
  | zero => intro u st h; exact h
  | succ f ih =>
    intro u st hpre
    simp only [traverseG]
    by_cases hv : u ∈ st.visited
    · rw [if_pos hv]; exact hpre
    · rw [if_neg hv]
      apply loopG_rel_sup (fun v s pre => ih v s pre)
      intro a ha
      rcases mem_addElem.mp ha with h | rfl
      · exact subset_addElem (hpre a h)
      · exact mem_addElem_self

/-! ## Reachability lemmas -/

theorem reach_mem_of_closed {dirs : List Dir} {edges : List Edge}
    {F : List String}
    (hcl : ∀ w ∈ F, ∀ v, nbrP dirs edges w v → v ∈ F) {x a : String}
    (hx : x ∈ F) (h : ReachG dirs edges x a) : a ∈ F := by
  induction h with
  | refl => exact hx
  | tail _ h2 ih => exact hcl _ ih _ h2

theorem reach_flip {α : Type} {r : α → α → Prop} {x y : α}
    (h : Relation.ReflTransGen (fun a b => r b a) x y) :
    Relation.ReflTransGen r y x := by
  induction h with
  | refl => exact Relation.ReflTransGen.refl
  | tail _ h2 ih => exact Relation.ReflTransGen.head h2 ih

theorem reflTransGen_congr {α : Type} {r s : α → α → Prop}
    (h : ∀ a b, r a b ↔ s a b) {x y : α} :
    Relation.ReflTransGen r x y ↔ Relation.ReflTransGen s x y :=
  ⟨Relation.ReflTransGen.mono (fun a b => (h a b).mp),
   Relation.ReflTransGen.mono (fun a b => (h a b).mpr)⟩

theorem nbrP_inc_iff {edges : List Edge} {u v : String} :
    nbrP [Dir.inc] edges u v ↔ EStep edges v u := by
  constructor
  · rintro ⟨d, hd, e, he, h1, h2⟩
    rcases List.mem_singleton.mp hd with rfl
    exact ⟨e, he, h2 ▸ rfl, beq_iff_eq.mp h1⟩
  · rintro ⟨e, he, h1, h2⟩
    exact ⟨Dir.inc, List.mem_singleton.mpr rfl, e, he,
      beq_iff_eq.mpr h2, h1⟩

theorem nbrP_out_iff {edges : List Edge} {u v : String} :
    nbrP [Dir.out] edges u v ↔ EStep edges u v := by
  constructor
  · rintro ⟨d, hd, e, he, h1, h2⟩
    rcases List.mem_singleton.mp hd with rfl
    exact ⟨e, he, beq_iff_eq.mp h1, h2 ▸ rfl⟩
  · rintro ⟨e, he, h1, h2⟩
    exact ⟨Dir.out, List.mem_singleton.mpr rfl, e, he,
      beq_iff_eq.mpr h1, h2⟩

theorem nbrP_chain_iff {edges : List Edge} {u v : String} :
    nbrP chainDirs edges u v ↔ WeakStep edges u v := by
  constructor
  · rintro ⟨d, hd, e, he, h1, h2⟩
    rcases List.mem_cons.mp hd with rfl | hd
    · exact ⟨e, he, Or.inr ⟨h2 ▸ rfl, beq_iff_eq.mp h1⟩⟩
    · rcases List.mem_singleton.mp hd with rfl
      exact ⟨e, he, Or.inl ⟨beq_iff_eq.mp h1, h2 ▸ rfl⟩⟩
  · rintro ⟨e, he, h | h⟩
    · exact ⟨Dir.out, List.mem_cons_of_mem _ (List.mem_singleton.mpr rfl), e, he,
        beq_iff_eq.mpr h.1, h.2⟩
    · exact ⟨Dir.inc, List.mem_cons_self _ _, e, he,
        beq_iff_eq.mpr h.2, h.1⟩

theorem any_id_eq {eng : Engine} {s : String} :
    (eng.nodes.any (fun n => n.id == s)) = true ↔ nodeExists eng s := by
  simp [nodeExists, List.any_eq_true]

/-! ## Universe facts -/

theorem chainU_hU (eng : Engine) (S : List String) :
    ∀ e ∈ eng.edges, e.source ∈ chainU eng S ∧ e.target ∈ chainU eng S := by
  intro e he
  refine ⟨List.mem_toFinset.mpr ?_, List.mem_toFinset.mpr ?_⟩
  · exact List.mem_append.mpr (Or.inr (List.mem_append.mpr
      (Or.inl (List.mem_map.mpr ⟨e, he, rfl⟩))))
  · exact List.mem_append.mpr (Or.inr (List.mem_append.mpr
      (Or.inr (List.mem_map.mpr ⟨e, he, rfl⟩))))

theorem chainU_start {eng : Engine} {S : List String} {s : String}
    (hs : s ∈ S) : s ∈ chainU eng S :=
  List.mem_toFinset.mpr (List.mem_append.mpr (Or.inl hs))

theorem chainU_card (eng : Engine) (S : List String) :
    (chainU eng S).card ≤ chainFuel eng S := by
  have h := List.toFinset_card_le
    (S ++ (eng.edges.map Edge.source ++ eng.edges.map Edge.target))
  simp only [List.length_append, List.length_map] at h
  unfold chainU chainFuel
  omega

theorem rootU_hU (eng : Engine) (x : String) :
    ∀ e ∈ eng.edges, e.source ∈ rootU eng x ∧ e.target ∈ rootU eng x := by
  intro e he
  refine ⟨Finset.mem_insert_of_mem (List.mem_toFinset.mpr ?_),
          Finset.mem_insert_of_mem (List.mem_toFinset.mpr ?_)⟩
  · exact List.mem_append.mpr (Or.inl (List.mem_map.mpr ⟨e, he, rfl⟩))
  · exact List.mem_append.mpr (Or.inr (List.mem_map.mpr ⟨e, he, rfl⟩))

theorem rootU_card (eng : Engine) (x : String) :
    (rootU eng x).card ≤ upFuel eng := by
  have h1 := Finset.card_insert_le x
    ((eng.edges.map Edge.source ++ eng.edges.map Edge.target)).toFinset
  have h2 := List.toFinset_card_le
    (eng.edges.map Edge.source ++ eng.edges.map Edge.target)
  simp only [List.length_append, List.length_map] at h2
  unfold rootU upFuel
  omega

/-! ## Single-root characterization (traceImpact / traceDependencies) -/

theorem root_nodes_iff (g : Bool) (dirs : List Dir) (eng : Engine)
    (x a : String) :
    a ∈ (traverseG g dirs eng.edges (upFuel eng) x ⟨[], [], []⟩).relNodes ↔
      ReachG dirs eng.edges x a := by
  have hU := rootU_hU eng x
  have hcard : ((rootU eng x) \ (([] : List String)).toFinset).card ≤ upFuel eng := by
    simpa using rootU_card eng x
  have hx : x ∈ rootU eng x := Finset.mem_insert_self _ _
  obtain ⟨hin, hclosed, hrv⟩ :=
    tG_ad (rootU eng x) hU (upFuel eng) x ⟨[], [], []⟩ hx hcard
  constructor
  · intro ha
    have hvis := hrv (fun b hb => absurd hb (List.not_mem_nil b)) a ha
    rcases tG_sound g dirs eng.edges (upFuel eng) x ⟨[], [], []⟩ a hvis with h | h
    · exact absurd h (List.not_mem_nil a)
    · exact h
  · intro hr
    have hcl : ∀ w ∈ (traverseG g dirs eng.edges (upFuel eng) x ⟨[], [], []⟩).visited,
        ∀ v, nbrP dirs eng.edges w v →
          v ∈ (traverseG g dirs eng.edges (upFuel eng) x ⟨[], [], []⟩).visited := by
      intro w hw
      rcases hclosed w hw with h | h
      · exact absurd h (List.not_mem_nil w)
      · exact h
    have hvis := reach_mem_of_closed hcl hin hr
    exact tG_rel_sup g dirs eng.edges (upFuel eng) x ⟨[], [], []⟩
      (fun b hb => absurd hb (List.not_mem_nil b)) a hvis

theorem traceImpact_nodes_iff (eng : Engine) (x a : String) :
    a ∈ (traceImpact eng x).nodes ↔ DownReach eng a x := by
  have h1 : a ∈ (traceImpact eng x).nodes ↔ ReachG [Dir.inc] eng.edges x a :=
    root_nodes_iff false [Dir.inc] eng x a
  rw [h1]
  constructor
  · intro h
    exact reach_flip (Relation.ReflTransGen.mono
      (fun c d hcd => nbrP_inc_iff.mp hcd) h)
  · intro h
    exact Relation.ReflTransGen.mono (fun c d hcd => nbrP_inc_iff.mpr hcd)
      (@reach_flip String (fun c d => EStep eng.edges d c) a x h)

theorem traceDeps_nodes_iff (eng : Engine) (x a : String) :
    a ∈ (traceDependencies eng x).nodes ↔ DownReach eng x a := by
  have h1 : a ∈ (traceDependencies eng x).nodes ↔
      ReachG [Dir.out] eng.edges x a :=
    root_nodes_iff false [Dir.out] eng x a
  rw [h1]
  exact reflTransGen_congr (fun c d => nbrP_out_iff)

/-! ## traceChain fold lemmas and characterization -/

theorem fold_mono (eng : Engine) (fuel : Nat) :
    ∀ (S : List String) (st : TState),
      TState.Sub st (S.foldl (chainStep eng fuel) st) := by
  intro S
  induction S with
  | nil => exact fun st => TState.Sub.refl st
  | cons s S ih =>
    intro st
    rw [List.foldl_cons]
    refine TState.Sub.trans ?_ (ih _)
    unfold chainStep
    split
    · exact tG_mono true chainDirs eng.edges fuel s st
    · exact TState.Sub.refl st

theorem fold_sound (eng : Engine) (fuel : Nat) :
    ∀ (S : List String) (st : TState) (a : String),
      a ∈ (S.foldl (chainStep eng fuel) st).visited →
      a ∈ st.visited ∨ ∃ s ∈ S, nodeExists eng s ∧
        ReachG chainDirs eng.edges s a := by
  intro S
  induction S with
  | nil => intro st a ha; exact Or.inl ha
  | cons s S ih =>
    intro st a ha
    rw [List.foldl_cons] at ha
    rcases ih _ a ha with h1 | ⟨s2, hs2, hex, hr⟩
    · unfold chainStep at h1
      split at h1
      · next hany =>
        rcases tG_sound true chainDirs eng.edges fuel s st a h1 with h2 | hr
        · exact Or.inl h2
        · exact Or.inr ⟨s, List.mem_cons_self s S, any_id_eq.mp hany, hr⟩
      · exact Or.inl h1
    · exact Or.inr ⟨s2, List.mem_cons_of_mem s hs2, hex, hr⟩

theorem fold_ad (eng : Engine) (fuel : Nat) (U : Finset String)
    (hU : ∀ e ∈ eng.edges, e.source ∈ U ∧ e.target ∈ U)
    (hfuel : U.card ≤ fuel) :
    ∀ (S : List String) (st : TState), (∀ s ∈ S, s ∈ U) →
      (∀ s ∈ S, (eng.nodes.any (fun n => n.id == s)) = true →
        s ∈ (S.foldl (chainStep eng fuel) st).visited) ∧
      Closed chainDirs eng.edges st (S.foldl (chainStep eng fuel) st) ∧
      ((∀ a ∈ st.relNodes, a ∈ st.visited) →
        ∀ a ∈ (S.foldl (chainStep eng fuel) st).relNodes,
          a ∈ (S.foldl (chainStep eng fuel) st).visited) := by
  intro S
  induction S with
  | nil =>
    intro st _
    exact ⟨fun s h => absurd h (List.not_mem_nil s), Closed.self _ _ _, fun h => h⟩
  | cons s S ih =>
    intro st hS
    rw [List.foldl_cons]
    by_cases hany : (eng.nodes.any (fun n => n.id == s)) = true
    · have hstep : chainStep eng fuel st s =
          traverseG true chainDirs eng.edges fuel s st := by
        unfold chainStep; rw [if_pos hany]
      rw [hstep]
      have hcard : (U \ st.visited.toFinset).card ≤ fuel :=
        le_trans (Finset.card_le_card Finset.sdiff_subset) hfuel
      obtain ⟨hin, hclosed, hrv⟩ :=
        tG_ad U hU fuel s st (hS s (List.mem_cons_self s S)) hcard
      obtain ⟨A, B, C⟩ := ih (traverseG true chainDirs eng.edges fuel s st)
        (fun s2 h => hS s2 (List.mem_cons_of_mem s h))
      refine ⟨?_, Closed.compose hclosed B (fold_mono eng fuel S _).1, ?_⟩
      · intro s2 hs2 hany2
        rcases List.mem_cons.mp hs2 with rfl | hmem
        · exact (fold_mono eng fuel S _).1 hin
        · exact A s2 hmem hany2
      · intro pre
        exact C (hrv (fun b hb => Or.inl (pre b hb)))
    · have hstep : chainStep eng fuel st s = st := by
        unfold chainStep; rw [if_neg hany]
      rw [hstep]
      obtain ⟨A, B, C⟩ := ih st (fun s2 h => hS s2 (List.mem_cons_of_mem s h))
      refine ⟨?_, B, C⟩
      intro s2 hs2 hany2
      rcases List.mem_cons.mp hs2 with rfl | hmem
      · exact absurd hany2 hany
      · exact A s2 hmem hany2

theorem fold_rel_sup (eng : Engine) (fuel : Nat) :
    ∀ (S : List String) (st : TState),
      (∀ a ∈ st.visited, a ∈ st.relNodes) →
      ∀ a ∈ (S.foldl (chainStep eng fuel) st).visited,
        a ∈ (S.foldl (chainStep eng fuel) st).relNodes := by
  intro S
  induction S with
  | nil => intro st h; exact h
  | cons s S ih =>
    intro st hpre
    rw [List.foldl_cons]
    apply ih
    unfold chainStep
    split
    · exact tG_rel_sup true chainDirs eng.edges fuel s st hpre
    · exact hpre

theorem chainStep_congr (eng : Engine) (U : Finset String)
    (hU : ∀ e ∈ eng.edges, e.source ∈ U ∧ e.target ∈ U) {f1 f2 : Nat}
    (h1 : U.card ≤ f1) (h2 : U.card ≤ f2) (st : TState) {s : String}
    (hs : s ∈ U) : chainStep eng f1 st s = chainStep eng f2 st s := by
  unfold chainStep
  split
  · have hcard0 : (U \ st.visited.toFinset).card ≤ U.card :=
      Finset.card_le_card Finset.sdiff_subset
    rw [tG_stab_ge U hU U.card f1 h1 s st hs hcard0,
        tG_stab_ge U hU U.card f2 h2 s st hs hcard0]
  · rfl

theorem fold_congr (eng : Engine) (U : Finset String)
    (hU : ∀ e ∈ eng.edges, e.source ∈ U ∧ e.target ∈ U) {f1 f2 : Nat}
    (h1 : U.card ≤ f1) (h2 : U.card ≤ f2) :
    ∀ (S : List String) (st : TState), (∀ s ∈ S, s ∈ U) →
      S.foldl (chainStep eng f1) st = S.foldl (chainStep eng f2) st := by
  intro S
  induction S with
  | nil => intro st _; rfl
  | cons s S ih =>
    intro st hS
    rw [List.foldl_cons, List.foldl_cons,
        chainStep_congr eng U hU h1 h2 st (hS s (List.mem_cons_self s S))]
    exact ih _ (fun s2 h => hS s2 (List.mem_cons_of_mem s h))

theorem traceChain_nodes_iff (eng : Engine) (S : List String) (a : String) :
    a ∈ (traceChain eng S).nodes ↔
      ∃ s ∈ S, nodeExists eng s ∧ WeakReach eng s a := by
  obtain ⟨FA, FB, FC⟩ := fold_ad eng (chainFuel eng S) (chainU eng S)
    (chainU_hU eng S) (chainU_card eng S) S ⟨[], [], []⟩
    (fun s hs => chainU_start hs)
  have hreach : ∀ s b, ReachG chainDirs eng.edges s b ↔ WeakReach eng s b :=
    fun s b => reflTransGen_congr (fun c d => nbrP_chain_iff)
  simp only [traceChain, traceChainFuel]
  constructor
  · intro ha
    have hvis := FC (fun b hb => absurd hb (List.not_mem_nil b)) a ha
    rcases fold_sound eng (chainFuel eng S) S ⟨[], [], []⟩ a hvis with
      h | ⟨s, hs, hex, hr⟩
    · exact absurd h (List.not_mem_nil a)
    · exact ⟨s, hs, hex, (hreach s a).mp hr⟩
  · rintro ⟨s, hs, hex, hr⟩
    have hsin := FA s hs (any_id_eq.mpr hex)
    have hcl : ∀ w ∈ (S.foldl (chainStep eng (chainFuel eng S)) ⟨[], [], []⟩).visited,
        ∀ v, nbrP chainDirs eng.edges w v →
          v ∈ (S.foldl (chainStep eng (chainFuel eng S)) ⟨[], [], []⟩).visited := by
      intro w hw
      rcases FB w hw with h | h
      · exact absurd h (List.not_mem_nil w)
      · exact h
    have hvis := reach_mem_of_closed hcl hsin ((hreach s a).mpr hr)
    exact fold_rel_sup eng (chainFuel eng S) S ⟨[], [], []⟩
      (fun b hb => absurd hb (List.not_mem_nil b)) a hvis

/-! ## Stabilisation of the wrappers (termination in the fuel model) -/

theorem traceChainFuel_stab (eng : Engine) (S : List String) (f : Nat)
    (h : chainFuel eng S ≤ f) : traceChainFuel eng f S = traceChain eng S := by
  have heq := fold_congr eng (chainU eng S) (chainU_hU eng S)
    (le_trans (chainU_card eng S) h) (chainU_card eng S) S ⟨[], [], []⟩
    (fun s hs => chainU_start hs)
  simp only [traceChain, traceChainFuel]
  rw [heq]

theorem traceImpactFuel_stab (eng : Engine) (x : String) (f : Nat)
    (h : upFuel eng ≤ f) : traceImpactFuel eng f x = traceImpact eng x := by
  have hcard : ((rootU eng x) \ (([] : List String)).toFinset).card ≤ upFuel eng := by
    simpa using rootU_card eng x
  simp only [traceImpact, traceImpactFuel]
  rw [tG_stab_ge (rootU eng x) (rootU_hU eng x) (upFuel eng) f h x ⟨[], [], []⟩
    (Finset.mem_insert_self _ _) hcard]

theorem traceDepsFuel_stab (eng : Engine) (x : String) (f : Nat)
    (h : upFuel eng ≤ f) : traceDepsFuel eng f x = traceDependencies eng x := by
  have hcard : ((rootU eng x) \ (([] : List String)).toFinset).card ≤ upFuel eng := by
    simpa using rootU_card eng x
  simp only [traceDependencies, traceDepsFuel]
  rw [tG_stab_ge (rootU eng x) (rootU_hU eng x) (upFuel eng) f h x ⟨[], [], []⟩
    (Finset.mem_insert_self _ _) hcard]

/-! ## Idempotence of traceChain -/

theorem traceChain_idem (eng : Engine) (S : List String) (a : String) :
    a ∈ (traceChain eng ((traceChain eng S).nodes)).nodes ↔
      a ∈ (traceChain eng S).nodes := by
  rw [traceChain_nodes_iff eng ((traceChain eng S).nodes) a]
  constructor
  · rintro ⟨r, hr, hex, hra⟩
    rcases (traceChain_nodes_iff eng S r).mp hr with ⟨s, hs, hex2, hsr⟩
    exact (traceChain_nodes_iff eng S a).mpr
      ⟨s, hs, hex2, Relation.ReflTransGen.trans hsr hra⟩
  · intro ha
    rcases (traceChain_nodes_iff eng S a).mp ha with ⟨s, hs, hex, hsa⟩
    have hsin : s ∈ (traceChain eng S).nodes :=
      (traceChain_nodes_iff eng S s).mpr ⟨s, hs, hex, Relation.ReflTransGen.refl⟩
    exact ⟨s, hsin, hex, hsa⟩

/-! ## Degenerate inputs -/

theorem loopG_no_fire {step : String → TState → TState} {g : Bool} {u : String} :
    ∀ (l : List (Dir × Edge)) (st : TState),
      (∀ de ∈ l, (matchDir de.1 de.2 u).1 = false) →
      loopG step g u l st = st := by
  intro l
  induction l with
  | nil => intro st _; rfl
  | cons de rest ih =>
    intro st hl
    simp only [loopG]
    rw [if_neg (fun hc => by
      have := hl de (List.mem_cons_self de rest)
      rw [hc.1] at this
      exact Bool.true_eq_false.mp this)]
    exact ih st (fun de2 h => hl de2 (List.mem_cons_of_mem de h))

theorem traceChain_not_found (eng : Engine) (x : String)
    (h : ∀ n ∈ eng.nodes, n.id ≠ x) : traceChain eng [x] = ⟨[], []⟩ := by
  have hany : (eng.nodes.any (fun n => n.id == x)) = false := by
    rw [List.any_eq_false]
    intro n hn
    simp only [beq_iff_eq]
    exact h n hn
  simp only [traceChain, traceChainFuel, List.foldl_cons, List.foldl_nil,
    chainStep, hany]
  rfl

theorem traceRoot_isolated (g : Bool) (d : Dir) (eng : Engine) (x : String)
    (h : ∀ e ∈ eng.edges, e.source ≠ x ∧ e.target ≠ x) :
    traverseG g [d] eng.edges (upFuel eng) x ⟨[], [], []⟩ =
      ⟨[x], [x], []⟩ := by
  obtain ⟨f, hf⟩ : ∃ f, upFuel eng = f + 1 := ⟨2 * eng.edges.length, rfl⟩
  rw [hf]
  simp only [traverseG]
  rw [if_neg (List.not_mem_nil x)]
  rw [loopG_no_fire _ _ (fun de hde => ?_)]
  · rfl
  · rcases mem_expandList.mp hde with ⟨hd, he⟩
    rcases List.mem_singleton.mp hd with rfl
    cases de.1
    · simp only [matchDir]
      exact beq_eq_false_iff_ne.mpr (h de.2 he).2
    · simp only [matchDir]
      exact beq_eq_false_iff_ne.mpr (h de.2 he).1

theorem traceImpact_isolated (eng : Engine) (x : String)
    (h : ∀ e ∈ eng.edges, e.source ≠ x ∧ e.target ≠ x) :
    traceImpact eng x = ⟨[x], []⟩ := by
  simp only [traceImpact, traceImpactFuel]
  rw [traceRoot_isolated false Dir.inc eng x h]

theorem traceDeps_isolated (eng : Engine) (x : String)
    (h : ∀ e ∈ eng.edges, e.source ≠ x ∧ e.target ≠ x) :
    traceDependencies eng x = ⟨[x], []⟩ := by
  simp only [traceDependencies, traceDepsFuel]
  rw [traceRoot_isolated false Dir.out eng x h]

/-! ## calculateStats lemmas -/

theorem stats_step_sum (acc : List (String × Nat) × ByStatus) (n : Node) :
    (statsFold acc n).2.achieved + (statsFold acc n).2.unachieved =
      acc.2.achieved + acc.2.unachieved +
      (if (n.data.category == "kpi" && n.data.metrics.isSome) = true
        then 1 else 0) := by
  unfold statsFold
  by_cases hcat : n.data.category = "kpi"
  · rcases hmet : n.data.metrics with _ | m
    · simp [hcat, hmet]
    · by_cases hach : m.achieved = true
      · by_cases hmt : truthyStr m.modelType = true <;>
          simp [hcat, hmet, hach, hmt] <;> omega
      · rw [Bool.not_eq_true] at hach
        by_cases hmt : truthyStr m.modelType = true <;>
          simp [hcat, hmet, hach, hmt] <;> omega
  · simp [hcat]

theorem calcStats_sum (ns : List Node) :
    (calculateStats ns).byStatus.achieved +
      (calculateStats ns).byStatus.unachieved =
      ns.countP (fun n => n.data.category == "kpi" && n.data.metrics.isSome) := by
  have key : ∀ (l : List Node) (acc : List (String × Nat) × ByStatus),
      (l.foldl statsFold acc).2.achieved + (l.foldl statsFold acc).2.unachieved =
        acc.2.achieved + acc.2.unachieved +
        l.countP (fun n => n.data.category == "kpi" && n.data.metrics.isSome) := by
    intro l
    induction l with
    | nil => intro acc; simp
    | cons n l ih =>
      intro acc
      rw [List.foldl_cons, ih, stats_step_sum, List.countP_cons]
      by_cases hp : (n.data.category == "kpi" && n.data.metrics.isSome) = true <;>
        simp [hp] <;> omega
  simpa [calculateStats] using key ns ([], ⟨0, 0, 0, 0, 0⟩)

/-! ## Sort lemmas -/

theorem perm_insSorted {α : Type} (le : α → α → Bool) (x : α) (l : List α) :
    List.Perm (insSorted le x l) (x :: l) := by
  induction l with
  | nil => simp [insSorted]
  | cons y ys ih =>
    simp only [insSorted]
    split
    · exact List.Perm.refl _
    · exact (ih.cons y).trans (List.Perm.swap x y ys)

theorem perm_sortL {α : Type} (le : α → α → Bool) (l : List α) :
    List.Perm (sortL le l) l := by
  induction l with
  | nil => exact List.Perm.refl _
  | cons x xs ih => exact (perm_insSorted le x (sortL le xs)).trans (ih.cons x)

theorem pairwise_insSorted {α : Type} (le : α → α → Bool)
    (htot : ∀ a b, le a b = false → le b a = true)
    (htrans : ∀ a b c, le a b = true → le b c = true → le a c = true)
    (x : α) (l : List α) (h : l.Pairwise (fun a b => le a b = true)) :
    (insSorted le x l).Pairwise (fun a b => le a b = true) := by
  induction l with
  | nil => simp [insSorted]
  | cons y ys ih =>
    simp only [insSorted]
    rcases h with _ | ⟨hy, hys⟩
    split
    · next hxy =>
      refine List.Pairwise.cons ?_ (List.Pairwise.cons hy hys)
      intro b hb
      rcases List.mem_cons.mp hb with rfl | hb
      · exact hxy
      · exact htrans _ _ _ hxy (hy b hb)
    · next hxy =>
      refine List.Pairwise.cons ?_ (ih hys)
      intro b hb
      rcases List.mem_cons.mp ((perm_insSorted le x ys).mem_iff.mp hb) with rfl | hb
      · exact htot _ _ (Bool.eq_false_iff.mpr hxy)
      · exact hy b hb

theorem pairwise_sortL {α : Type} (le : α → α → Bool)
    (htot : ∀ a b, le a b = false → le b a = true)
    (htrans : ∀ a b c, le a b = true → le b c = true → le a c = true)
    (l : List α) : (sortL le l).Pairwise (fun a b => le a b = true) := by
  induction l with
  | nil => simp [sortL]
  | cons x xs ih => exact pairwise_insSorted le htot htrans x (sortL le xs) ih

theorem filterMap_of_some {α β : Type} (f : α → Option β) (g : α → β)
    (l : List α) (h : ∀ x ∈ l, f x = some (g x)) : l.filterMap f = l.map g := by
  induction l with
  | nil => rfl
  | cons x xs ih =>
    rw [List.filterMap_cons, h x (List.mem_cons_self x xs), List.map_cons,
      ih (fun y hy => h y (List.mem_cons_of_mem x hy))]

/-! ## queryNodes / prioritizeNodes lemmas -/

theorem kpis_eq (eng : Engine) :
    queryNodes eng kpiCond =
      eng.nodes.filter (fun n => n.data.category == "kpi") := by
  show eng.nodes.filter (fun n => (["kpi"] : List String).contains n.data.category) = _
  apply List.filter_congr
  intro n _
  cases h : n.data.category == "kpi" <;> simp [List.contains, List.elem, h]

theorem prioScore_pos (eng : Engine) (kpi : Node) : 0 < prioScore eng kpi := by
  unfold prioScore
  have h1 : kpi.id ∈ (traceDependencies eng kpi.id).nodes :=
    (traceDeps_nodes_iff eng kpi.id kpi.id).mpr Relation.ReflTransGen.refl
  have h2 : 0 < (traceDependencies eng kpi.id).nodes.length :=
    List.length_pos.mpr (List.ne_nil_of_mem h1)
  have h3 : 0 < min (traceDependencies eng kpi.id).nodes.length 20 :=
    lt_min h2 (by norm_num)
  omega

theorem prioritizeNodes_map (eng : Engine) :
    prioritizeNodes eng =
      sortL prioLe ((queryNodes eng kpiCond).map (fun kpi =>
        ⟨kpi.id, kpi.data.label, kpi.data.category,
          prioScore eng kpi, prioReasons eng kpi⟩)) := by
  show sortL prioLe ((queryNodes eng kpiCond).filterMap (fun kpi =>
    if 0 < prioScore eng kpi then
      some ⟨kpi.id, kpi.data.label, kpi.data.category,
            prioScore eng kpi, prioReasons eng kpi⟩
    else none)) = _
  rw [filterMap_of_some _
    (fun kpi => (⟨kpi.id, kpi.data.label, kpi.data.category,
      prioScore eng kpi, prioReasons eng kpi⟩ : PriorityEntry)) _
    (fun kpi _ => if_pos (prioScore_pos eng kpi))]

/-! ## analyzeCorrelations lemmas -/

theorem corrPairs_mem {eng : Engine} {c : CorrelationAnalysis} :
    c ∈ corrPairs eng ↔
      ∃ p ∈ pairsAfter (queryNodes eng kpiCond),
        (0 < (sharedOf eng p.1.id p.2.id "design").length ∨
         0 < (sharedOf eng p.1.id p.2.id "verify").length) ∧
        c = mkCorr eng p.1 p.2 := by
  unfold corrPairs
  rw [List.mem_filterMap]
  constructor
  · rintro ⟨p, hp, hf⟩
    by_cases hc : 0 < (sharedOf eng p.1.id p.2.id "design").length ∨
        0 < (sharedOf eng p.1.id p.2.id "verify").length
    · rw [if_pos hc] at hf
      exact ⟨p, hp, hc, (Option.some_inj.mp hf).symm⟩
    · rw [if_neg hc] at hf
      exact absurd hf (Option.noConfusion)
  · rintro ⟨p, hp, hc, rfl⟩
    exact ⟨p, hp, if_pos hc⟩

theorem mkCorr_sd (eng : Engine) (k1 k2 : Node) :
    (mkCorr eng k1 k2).sharedDesignParams =
      (sharedOf eng k1.id k2.id "design").length := rfl

theorem mkCorr_sv (eng : Engine) (k1 k2 : Node) :
    (mkCorr eng k1 k2).sharedVerifications =
      (sharedOf eng k1.id k2.id "verify").length := rfl

theorem mkCorr_strong_iff (eng : Engine) (k1 k2 : Node) :
    ((mkCorr eng k1 k2).correlationStrength = "strong") ↔
      2 ≤ (mkCorr eng k1 k2).sharedDesignParams := by
  unfold mkCorr
  by_cases h2 : 2 ≤ (sharedOf eng k1.id k2.id "design").length
  · simp [h2]
  · by_cases h1 : 1 ≤ (sharedOf eng k1.id k2.id "design").length <;>
      simp [h2, h1]

theorem mkCorr_medium_iff (eng : Engine) (k1 k2 : Node) :
    ((mkCorr eng k1 k2).correlationStrength = "medium") ↔
      (mkCorr eng k1 k2).sharedDesignParams = 1 := by
  unfold mkCorr
  by_cases h2 : 2 ≤ (sharedOf eng k1.id k2.id "design").length
  · simp [h2]
    omega
  · by_cases h1 : 1 ≤ (sharedOf eng k1.id k2.id "design").length <;>
      simp [h2, h1] <;> omega

/-! ## Parser lemmas -/

theorem parseQuery_intent (q : String) :
    (parseQuery q).intent = (intentOf (normalizeQ q)).1 := rfl

theorem parseQuery_conf (q : String) :
    (parseQuery q).confidence = (intentOf (normalizeQ q)).2 := rfl

theorem parseQuery_entities (q : String) :
    (parseQuery q).entities = entityList q (normalizeQ q) := rfl

theorem intentOf_stats (nq : String) (h : statsTest nq = true) :
    intentOf nq = (QueryIntent.query_stats, 0.9) := by
  unfold intentOf
  rw [if_pos h]

theorem nodeIdEntity_mem {q t : String} (ht : t ∈ wordTokens q)
    (hs : upperShape t.data = true) (hp : hasNodeIdStart t = true) :
    (⟨EntityType.node_id, t, 0.95⟩ : Entity) ∈ (parseQuery q).entities := by
  have h1 : (⟨EntityType.node_id, t, 0.95⟩ : Entity) ∈ nodeIdEntities q := by
    unfold nodeIdEntities
    apply List.mem_filterMap.mpr
    exact ⟨t, List.mem_filter.mpr ⟨ht, hs⟩, by rw [if_pos hp]⟩
  rw [parseQuery_entities]
  exact List.mem_append_left _ (List.mem_append_left _ (List.mem_append_left _
    (List.mem_append_left _ (List.mem_append_left _ h1))))

/-! # Claim theorems -/

/-- C1, counterexample: the claim quantifies over every list of start node
IDs; for the start id "ghost", absent from the snapshot, "ghost" is
(trivially) weakly reachable from the start set, yet
`traceChain(["ghost"]).nodes` is empty — the code filters nonexistent
start ids out before traversing. -/
theorem claim1_counterexample :
    WeakReach ghostEng "ghost" "ghost" ∧
    "ghost" ∉ (traceChain ghostEng ["ghost"]).nodes :=
  ⟨Relation.ReflTransGen.refl, by decide⟩

/-- C1, amended: for start ids that exist in the node snapshot,
`traceChain(S).nodes` is exactly the set of nodes weakly reachable from S
(the union of the weakly-connected components of the members of S); and
for EVERY start list, re-running `traceChain` on the returned node set
returns the same node set (idempotence). -/
theorem claim1_closure_idem (eng : Engine) (S : List String) :
    ((∀ s ∈ S, nodeExists eng s) →
      ∀ a, a ∈ (traceChain eng S).nodes ↔ ∃ s ∈ S, WeakReach eng s a) ∧
    (∀ a, a ∈ (traceChain eng ((traceChain eng S).nodes)).nodes ↔
      a ∈ (traceChain eng S).nodes) := by
  refine ⟨?_, traceChain_idem eng S⟩
  intro hex a
  rw [traceChain_nodes_iff]
  constructor
  · rintro ⟨s, hs, _, hr⟩
    exact ⟨s, hs, hr⟩
  · rintro ⟨s, hs, hr⟩
    exact ⟨s, hs, hex s hs, hr⟩

/-- C1, witness: the amended closure theorem applied to the concrete line
`A→B→C` with the existing start id "A". -/
theorem claim1_witness :
    (∀ s ∈ ["A"], nodeExists lineEng s) ∧
    ("C" ∈ (traceChain lineEng ["A"]).nodes ↔
      ∃ s ∈ ["A"], WeakReach lineEng s "C") :=
  ⟨by unfold nodeExists; decide,
   (claim1_closure_idem lineEng ["A"]).1 (by unfold nodeExists; decide) "C"⟩

/-- C2, counterexample: a kpi-category node with no metrics record is
counted by "number of kpi-category nodes" but by neither `achieved` nor
`unachieved` (the source guards the status histogram with
`node.data.metrics` truthiness), so the claimed equation fails on the
one-node input. -/
theorem claim2_counterexample :
    (calculateStats [noMetricsKpi]).byStatus.achieved +
      (calculateStats [noMetricsKpi]).byStatus.unachieved = 0 ∧
    ([noMetricsKpi].countP (fun n => n.data.category == "kpi")) = 1 := by
  decide

/-- C2, amended: for every input node list,
`byStatus.achieved + byStatus.unachieved` equals the number of
kpi-category nodes that carry a metrics record (kpi nodes without metrics
are counted by neither). -/
theorem claim2_stats_sum (ns : List Node) :
    (calculateStats ns).byStatus.achieved +
      (calculateStats ns).byStatus.unachieved =
      ns.countP (fun n => n.data.category == "kpi" && n.data.metrics.isSome) :=
  calcStats_sum ns

/-- C3: on the two-node directed cycle `X→Y`, `Y→X` the traversal
terminates with node set exactly {X, Y}; and in general all three
traversals are fully stabilised at the wrapper fuel — any larger fuel
returns the identical result, i.e. the recursion has genuinely bottomed
out on every finite graph, cyclic or not, because visited nodes are never
re-expanded. -/
theorem claim3_termination :
    (traceChain cycEng ["X"]).nodes = ["X", "Y"] ∧
    (∀ (eng : Engine) (S : List String) (f : Nat), chainFuel eng S ≤ f →
      traceChainFuel eng f S = traceChain eng S) ∧
    (∀ (eng : Engine) (x : String) (f : Nat), upFuel eng ≤ f →
      traceImpactFuel eng f x = traceImpact eng x) ∧
    (∀ (eng : Engine) (x : String) (f : Nat), upFuel eng ≤ f →
      traceDepsFuel eng f x = traceDependencies eng x) :=
  ⟨by decide, traceChainFuel_stab, traceImpactFuel_stab, traceDepsFuel_stab⟩

/-- C3, witness: stabilisation applied to the concrete cycle snapshot at
fuel 100. -/
theorem claim3_witness :
    chainFuel cycEng ["X"] ≤ 100 ∧
    traceChainFuel cycEng 100 ["X"] = traceChain cycEng ["X"] ∧
    upFuel cycEng ≤ 100 ∧
    traceImpactFuel cycEng 100 "X" = traceImpact cycEng "X" ∧
    traceDepsFuel cycEng 100 "X" = traceDependencies cycEng "X" :=
  ⟨by decide, claim3_termination.2.1 cycEng ["X"] 100 (by decide), by decide,
   claim3_termination.2.2.1 cycEng "X" 100 (by decide),
   claim3_termination.2.2.2 cycEng "X" 100 (by decide)⟩

/-- C4, counterexample: "KPI_FoldTime" is a word-delimited token of the
query matching the prefix pattern of the claim `^(KPI_|D_|V_|G_)…`, yet
`parseQuery` emits NO node_id entity for it: the extraction regex
`\b([A-Z_]+\d*)\b` cannot match a mixed-case token. -/
theorem claim4_counterexample :
    hasNodeIdStart "KPI_FoldTime" = true ∧
    wordTokens "KPI_FoldTime" = ["KPI_FoldTime"] ∧
    (parseQuery "KPI_FoldTime").entities.all
      (fun e => decide (e.etype ≠ EntityType.node_id)) = true := by
  decide

/-- C4, amended: every word-delimited token of the raw query of the shape
`[A-Z_]+[0-9]*` (uppercase letters/underscores, optional trailing digits,
no lowercase) that starts with KPI_/D_/V_/G_ is emitted verbatim as a
node_id entity with confidence 0.95. -/
theorem claim4_nodeid_entities (q t : String) (ht : t ∈ wordTokens q)
    (hs : upperShape t.data = true) (hp : hasNodeIdStart t = true) :
    (⟨EntityType.node_id, t, 0.95⟩ : Entity) ∈ (parseQuery q).entities :=
  nodeIdEntity_mem ht hs hp

/-- C4, witness: the amended extraction rule on the concrete query
"显示 KPI_NVH". -/
theorem claim4_witness :
    "KPI_NVH" ∈ wordTokens "显示 KPI_NVH" ∧
    upperShape "KPI_NVH".data = true ∧
    hasNodeIdStart "KPI_NVH" = true ∧
    (⟨EntityType.node_id, "KPI_NVH", 0.95⟩ : Entity) ∈
      (parseQuery "显示 KPI_NVH").entities :=
  ⟨by decide, by decide, by decide,
   claim4_nodeid_entities "显示 KPI_NVH" "KPI_NVH" (by decide) (by decide)
     (by decide)⟩

/-- C5: intent classification is first-match-wins over the fixed ordered
rule list (stats → chain → impact → issue → suggest → compare →
correlation → health → priority → display → unknown); in particular every
query matching both a stats keyword and a chain keyword resolves to
query_stats with confidence 0.9, as does the concrete query
"统计 KPI_FoldTime 的链路". -/
theorem claim5_intent_priority :
    (∀ nq, intentOf nq = firstRule intentRules nq) ∧
    (∀ q, statsTest (normalizeQ q) = true → chainTest (normalizeQ q) = true →
      (parseQuery q).intent = QueryIntent.query_stats ∧
      (parseQuery q).confidence = 0.9) ∧
    (parseQuery "统计 KPI_FoldTime 的链路").intent = QueryIntent.query_stats ∧
    (parseQuery "统计 KPI_FoldTime 的链路").confidence = 0.9 := by
  refine ⟨fun nq => rfl, ?_, ?_, ?_⟩
  · intro q hs _
    have h := intentOf_stats _ hs
    exact ⟨by rw [parseQuery_intent, h], by rw [parseQuery_conf, h]⟩
  · have h := intentOf_stats (normalizeQ "统计 KPI_FoldTime 的链路") (by decide)
    rw [parseQuery_intent, h]
  · have h := intentOf_stats (normalizeQ "统计 KPI_FoldTime 的链路") (by decide)
    rw [parseQuery_conf, h]

/-- C5, witness: the priority rule applied to the concrete mixed
stats-and-chain query. -/
theorem claim5_witness :
    statsTest (normalizeQ "统计 KPI_FoldTime 的链路") = true ∧
    chainTest (normalizeQ "统计 KPI_FoldTime 的链路") = true ∧
    (parseQuery "统计 KPI_FoldTime 的链路").intent = QueryIntent.query_stats ∧
    (parseQuery "统计 KPI_FoldTime 的链路").confidence = 0.9 :=
  ⟨by decide, by decide,
   (claim5_intent_priority.2.1 "统计 KPI_FoldTime 的链路" (by decide) (by decide)).1,
   (claim5_intent_priority.2.1 "统计 KPI_FoldTime 的链路" (by decide) (by decide)).2⟩

/-- C6: on `A→B`, `B→C`: `traceDependencies(B).nodes = {B, C}` (excludes
A) and `traceImpact(B).nodes = {B, A}` (excludes C); in general
`traceDependencies(x).nodes` is exactly the set of nodes reachable from x
along directed edges, and `traceImpact(x).nodes` exactly the set of nodes
from which x is reachable along directed edges (incoming edges followed
transitively). -/
theorem claim6_directionality :
    (traceDependencies lineEng "B").nodes = ["B", "C"] ∧
    (traceImpact lineEng "B").nodes = ["B", "A"] ∧
    (∀ (eng : Engine) (x a : String),
      a ∈ (traceDependencies eng x).nodes ↔ DownReach eng x a) ∧
    (∀ (eng : Engine) (x a : String),
      a ∈ (traceImpact eng x).nodes ↔ DownReach eng a x) :=
  ⟨by decide, by decide, traceDeps_nodes_iff, traceImpact_nodes_iff⟩

/-- C7, counterexample: "x" is absent from the node snapshot, but a
dangling edge `A→x` exists; `traceImpact("x")` follows it and reaches the
other node "A" — the traversals consult only the edge list, not the node
snapshot, so an absent id is NOT treated as an empty neighborhood when
dangling edges touch it. -/
theorem claim7_counterexample :
    dangEng.nodes.all (fun n => decide (n.id ≠ "x")) = true ∧
    "A" ∈ (traceImpact dangEng "x").nodes ∧ "A" ≠ "x" := by
  decide

/-- C7, amended: for an id absent from the node snapshot, `traceChain`
returns the empty result unconditionally; `traceImpact` and
`traceDependencies` never throw and return the single-node result
`{x}` with no edges provided no edge of the snapshot is incident to x
(which well-formed snapshots guarantee for absent ids). -/
theorem claim7_not_found (eng : Engine) (x : String) :
    ((∀ n ∈ eng.nodes, n.id ≠ x) →
      traceChain eng [x] = ⟨[], []⟩) ∧
    ((∀ e ∈ eng.edges, e.source ≠ x ∧ e.target ≠ x) →
      traceImpact eng x = ⟨[x], []⟩ ∧ traceDependencies eng x = ⟨[x], []⟩) :=
  ⟨traceChain_not_found eng x,
   fun h => ⟨traceImpact_isolated eng x h, traceDeps_isolated eng x h⟩⟩

/-- C7, witness: the amended behaviour on the concrete snapshot with the
absent id "ghost". -/
theorem claim7_witness :
    (∀ n ∈ ghostEng.nodes, n.id ≠ "ghost") ∧
    traceChain ghostEng ["ghost"] = ⟨[], []⟩ ∧
    (∀ e ∈ ghostEng.edges, e.source ≠ "ghost" ∧ e.target ≠ "ghost") ∧
    traceImpact ghostEng "ghost" = ⟨["ghost"], []⟩ ∧
    traceDependencies ghostEng "ghost" = ⟨["ghost"], []⟩ :=
  ⟨by decide, (claim7_not_found ghostEng "ghost").1 (by decide), by decide,
   ((claim7_not_found ghostEng "ghost").2 (by decide)).1,
   ((claim7_not_found ghostEng "ghost").2 (by decide)).2⟩

/-- C8: a kpi pair is included iff it shares an outgoing design neighbor
or an outgoing verify neighbor; included entries are strong iff they
share ≥ 2 design neighbors and medium iff exactly 1; the returned list
is a permutation of the pair list sorted descending by shared-design
count. -/
theorem claim8_correlations (eng : Engine) :
    (∀ c ∈ corrPairs eng,
      ((c.correlationStrength = "strong") ↔ 2 ≤ c.sharedDesignParams) ∧
      ((c.correlationStrength = "medium") ↔ c.sharedDesignParams = 1) ∧
      (1 ≤ c.sharedDesignParams ∨ 1 ≤ c.sharedVerifications)) ∧
    (∀ p ∈ pairsAfter (queryNodes eng kpiCond),
      (mkCorr eng p.1 p.2 ∈ corrPairs eng ↔
        1 ≤ (sharedOf eng p.1.id p.2.id "design").length ∨
        1 ≤ (sharedOf eng p.1.id p.2.id "verify").length)) ∧
    List.Perm (analyzeCorrelations eng) (corrPairs eng) ∧
    List.Pairwise (fun a b => b.sharedDesignParams ≤ a.sharedDesignParams)
      (analyzeCorrelations eng) := by
  refine ⟨?_, ?_, perm_sortL corrLe (corrPairs eng), ?_⟩
  · intro c hc
    rcases corrPairs_mem.mp hc with ⟨p, _, hcond, rfl⟩
    refine ⟨mkCorr_strong_iff eng p.1 p.2, mkCorr_medium_iff eng p.1 p.2, ?_⟩
    rw [mkCorr_sd, mkCorr_sv]
    omega
  · intro p hp
    constructor
    · intro hmem
      rcases corrPairs_mem.mp hmem with ⟨q, _, hcond, heq⟩
      have hsd : (mkCorr eng p.1 p.2).sharedDesignParams =
          (mkCorr eng q.1 q.2).sharedDesignParams := by rw [heq]
      have hsv : (mkCorr eng p.1 p.2).sharedVerifications =
          (mkCorr eng q.1 q.2).sharedVerifications := by rw [heq]
      rw [mkCorr_sd, mkCorr_sd] at hsd
      rw [mkCorr_sv, mkCorr_sv] at hsv
      omega
    · intro hcond
      exact corrPairs_mem.mpr ⟨p, hp, by omega, rfl⟩
  · have hpw := pairwise_sortL corrLe
      (fun a b h => decide_eq_true (le_of_not_le (of_decide_eq_false h)))
      (fun a b c h1 h2 =>
        decide_eq_true (le_trans (of_decide_eq_true h2) (of_decide_eq_true h1)))
      (corrPairs eng)
    exact hpw.imp (fun h => of_decide_eq_true h)

/-- C8, witness: the concrete snapshot with two kpi nodes sharing exactly
two design neighbors and no verify neighbors: the pair is included and
classified strong. -/
theorem claim8_witness :
    ((⟨"K1", nd "kpi"⟩, (⟨"K2", nd "kpi"⟩ : Node)) ∈
      pairsAfter (queryNodes corrEng kpiCond)) ∧
    (mkCorr corrEng ⟨"K1", nd "kpi"⟩ ⟨"K2", nd "kpi"⟩ ∈ corrPairs corrEng) ∧
    (mkCorr corrEng ⟨"K1", nd "kpi"⟩ ⟨"K2", nd "kpi"⟩).sharedDesignParams = 2 ∧
    (mkCorr corrEng ⟨"K1", nd "kpi"⟩ ⟨"K2", nd "kpi"⟩).sharedVerifications = 0 ∧
    (mkCorr corrEng ⟨"K1", nd "kpi"⟩ ⟨"K2", nd "kpi"⟩).correlationStrength =
      "strong" :=
  ⟨by decide,
   ((claim8_correlations corrEng).2.1 (⟨"K1", nd "kpi"⟩, ⟨"K2", nd "kpi"⟩)
     (by decide)).mpr (by decide),
   by decide, by decide,
   (((claim8_correlations corrEng).1 _
     (((claim8_correlations corrEng).2.1 (⟨"K1", nd "kpi"⟩, ⟨"K2", nd "kpi"⟩)
       (by decide)).mpr (by decide))).1).mpr (by decide)⟩

/-- C9: `prioritizeNodes` returns one entry per kpi-category node: every
kpi scores at least 1 (the capped downstream bonus
`min(traceDependencies(id).nodes.size, 20)` is at least 1 because the
downstream closure contains the node itself), so the `score > 0` filter
never drops a kpi and the result length equals the kpi count. -/
theorem claim9_prioritize (eng : Engine) :
    (prioritizeNodes eng).length =
      (eng.nodes.filter (fun n => n.data.category == "kpi")).length ∧
    (∀ p ∈ prioritizeNodes eng, 1 ≤ p.priorityScore) ∧
    (∀ n ∈ eng.nodes.filter (fun n => n.data.category == "kpi"),
      ∃ p ∈ prioritizeNodes eng, p.nodeId = n.id) := by
  have hperm : List.Perm (prioritizeNodes eng)
      ((queryNodes eng kpiCond).map (fun kpi =>
        (⟨kpi.id, kpi.data.label, kpi.data.category,
          prioScore eng kpi, prioReasons eng kpi⟩ : PriorityEntry))) := by
    rw [prioritizeNodes_map eng]
    exact perm_sortL _ _
  refine ⟨?_, ?_, ?_⟩
  · rw [hperm.length_eq, List.length_map, kpis_eq]
  · intro p hp
    rcases List.mem_map.mp (hperm.mem_iff.mp hp) with ⟨kpi, _, rfl⟩
    exact prioScore_pos eng kpi
  · intro n hn
    rw [← kpis_eq] at hn
    exact ⟨⟨n.id, n.data.label, n.data.category,
      prioScore eng n, prioReasons eng n⟩,
      hperm.mem_iff.mpr (List.mem_map.mpr ⟨n, hn, rfl⟩), rfl⟩

/-- C9, witness: the concrete one-kpi snapshot — the single kpi scores
50+30+20+10+2 = 112 > 0 and is the unique entry. -/
theorem claim9_witness :
    (prioritizeNodes prioEng).length = 1 ∧
    ((⟨"K1", "K1", "kpi", 112,
        ["指标未达成", "缺少模型", "缺少验证", "一级指标"]⟩ : PriorityEntry) ∈
      prioritizeNodes prioEng) ∧
    1 ≤ (⟨"K1", "K1", "kpi", 112,
        ["指标未达成", "缺少模型", "缺少验证", "一级指标"]⟩ : PriorityEntry).priorityScore :=
  ⟨by decide, by decide,
   (claim9_prioritize prioEng).2.1 _ (by decide)⟩

/-- C10: on the edge list `e1: A→B, e2: A→C, e3: B→C`,
`traceChain(["A"])` returns nodes {A, B, C} but edges {e1, e3} only:
edge e2 is skipped because when it is examined both of its endpoints are
already visited, even though both lie in the returned node set — the
returned edge set is not the full induced edge set. -/
theorem claim10_edge_skip :
    (traceChain triEng ["A"]).nodes = ["A", "B", "C"] ∧
    (traceChain triEng ["A"]).edges = ["e1", "e3"] ∧
    "e2" ∉ (traceChain triEng ["A"]).edges ∧
    (∃ e ∈ triEng.edges, e.id = "e2" ∧
      e.source ∈ (traceChain triEng ["A"]).nodes ∧
      e.target ∈ (traceChain triEng ["A"]).nodes) := by
  decide



end KPI
